import Mathlib

/-!
Verification development for the `alien` delegated-proof-of-stake consensus
engine of the goiov repository.  The Go sources are embedded shallowly:

* Go `uint64` arithmetic is `Nat` arithmetic reduced modulo `2 ^ 64` at the
  operations where Go wraps (`u64`, `usub`);
* `*big.Int` values (stakes, tallies, stored block numbers) are `Int`/`Nat`;
* Go maps are association lists (`alookup` / `ainsert` / `aerase`); Go map
  iteration order is not observable in any of the properties proved here,
  every iterated update below is order-independent in its final state;
* fallible operations return `Except AErr`; a Go `nil`-pointer dereference
  (possible in a few places of the source) is the explicit error
  `AErr.nilPanic`, and the potentially unbounded cascade loop of
  `updateSnapshotByCancels` is given explicit fuel whose exhaustion is the
  explicit error `AErr.fuelExhausted`;
* the cryptographic / serialization environment (`ecrecover`, RLP decoding)
  is out of the engine's scope; a header carries the outcome of both as
  `recovered : Option Addr` and `extra : Option HeaderExtra`.
-/

/-- Go uint64 truncation: arithmetic wraps modulo 2^64. -/
def u64 (n : Nat) : Nat := n % 2 ^ 64

/-- Go uint64 subtraction a - b, wrapping on underflow. -/
def usub (a b : Nat) : Nat := (u64 a + 2 ^ 64 - u64 b) % 2 ^ 64

/-- A common.Address, modelled by its byte sequence (common.Address.Bytes()). -/
abbrev Addr := List Nat

/-- A common.Hash, modelled abstractly by an identifier. -/
abbrev Hsh := Nat

/-- Association-list lookup, modelling Go map indexing m[k] (with its ok flag). -/
def alookup {K V : Type} [DecidableEq K] : List (K × V) → K → Option V
  | [], _ => none
  | p :: rest, key => if p.1 = key then some p.2 else alookup rest key

/-- Association-list insert/overwrite, modelling Go map assignment m[k] = v. -/
def ainsert {K V : Type} [DecidableEq K] : List (K × V) → K → V → List (K × V)
  | [], key, val => [(key, val)]
  | p :: rest, key, val =>
    if p.1 = key then (key, val) :: rest else p :: ainsert rest key val

/-- Association-list removal, modelling Go delete(m, k). -/
def aerase {K V : Type} [DecidableEq K] : List (K × V) → K → List (K × V)
  | [], _ => []
  | p :: rest, key => if p.1 = key then aerase rest key else p :: aerase rest key

/-- defaultFullCredit = 1000 (snapshot.go). -/
def defaultFullCredit : Nat := 1000

/-- missingPublishCredit = 100 (snapshot.go). -/
def missingPublishCredit : Nat := 100

/-- signRewardCredit = 100 (snapshot.go). -/
def signRewardCredit : Nat := 100

/-- autoRewardCredit = 1 (snapshot.go). -/
def autoRewardCredit : Nat := 1

/-- minCalSignerQueueCredit = 300 (snapshot.go). -/
def minCalSignerQueueCredit : Nat := 300

/-- Vote record (custom_tx.go): sender of the tx is Voter, tx.to is Candidate. -/
structure Vote where
  Voter : Addr
  Candidate : Addr
  Stake : Int
  Hash : Hsh
deriving DecidableEq, Repr

/-- Cancel record (custom_tx.go). -/
structure Cancel where
  Canceler : Addr
  Passive : Bool
deriving DecidableEq, Repr

/-- Confirmation record (custom_tx.go); BlockNumber is a big.Int read via Uint64(). -/
structure Confirmation where
  Signer : Addr
  BlockNumber : Nat
deriving DecidableEq, Repr

/-- HeaderExtra (custom_tx.go), the record RLP-encoded between vanity and seal. -/
structure HeaderExtra where
  CurrentBlockConfirmations : List Confirmation
  CurrentBlockVotes : List Vote
  CurrentBlockCancels : List Cancel
  LoopStartTime : Nat
  SignerQueue : List Addr
  SignerMissing : List Addr
  ConfirmedBlockNumber : Nat
deriving DecidableEq, Repr

/-- The part of types.Header the engine reads.  `recovered` is the outcome of
ecrecover (crypto environment, none = error) and `Extra` the outcome of RLP
decoding the extra-data segment (none = decode error). -/
structure Header where
  Number : Nat
  Time : Nat
  Coinbase : Addr
  HHash : Hsh
  recovered : Option Addr
  Extra : Option HeaderExtra
deriving DecidableEq, Repr

/-- params.AlienConfig (consensus parameters used by the embedded fragment). -/
structure AlienConfig where
  Period : Nat
  MaxSignerCount : Nat
  MinVoteValue : Int
  SelfVoteValue : Int
  Freeze : Nat
  GenesisTimestamp : Nat
  SelfVoteSigners : List Addr
deriving DecidableEq, Repr

/-- Snapshot (snapshot.go).  Backup1/Backup2 carry no engine meaning and are
omitted.  The sigcache is environment and omitted. -/
structure Snapshot where
  config : AlienConfig
  LCRS : Nat
  Period : Nat
  Number : Nat
  ConfirmedNumber : Nat
  Hash : Hsh
  HistoryHash : List Hsh
  Signers : List Addr
  Votes : List (Addr × Vote)
  Tally : List (Addr × Int)
  Voters : List (Addr × Nat)
  Cancels : List (Addr × Cancel)
  Cancelers : List (Addr × Nat)
  Candidates : List (Addr × List Vote)
  Punished : List (Addr × Nat)
  Confirmations : List (Nat × List Addr)
  HeaderTime : Nat
  LoopStartTime : Nat
deriving DecidableEq, Repr

/-- Failure modes of the embedded engine fragment. -/
inductive AErr where
  | invalidVotingChain
  | unauthorized
  | ecrecoverFailed
  | decodeFailed
  | incorrectTallyCount
  | nilPanic
  | fuelExhausted
deriving DecidableEq, Repr

/-- Snapshot.isCandidate (snapshot.go): address has an entry in s.Candidates. -/
def Snapshot.isCandidate (s : Snapshot) (address : Addr) : Bool :=
  (alookup s.Candidates address).isSome

/-- Insert one confirmation into a confirmations map unless the signer is
already recorded for that block number.  This is the body of the loops of
updateSnapshotByConfirmations and of getLastConfirmedBlockNumber
(snapshot.go), which duplicate the same logic. -/
def addConfirmation (m : List (Nat × List Addr)) (c : Confirmation) : List (Nat × List Addr) :=
  let bn := u64 c.BlockNumber
  let l := (alookup m bn).getD []
  if c.Signer ∈ l then ainsert m bn l else ainsert m bn (l ++ [c.Signer])

/-- Snapshot.updateSnapshotByConfirmations (snapshot.go). -/
def Snapshot.updateSnapshotByConfirmations (s : Snapshot) (confirmations : List Confirmation) :
    Snapshot :=
  { s with Confirmations := confirmations.foldl addConfirmation s.Confirmations }

/-- One iteration of the vote loop of Snapshot.updateSnapshotByVotes
(snapshot.go).  Adding to a tally entry that the map no longer holds while the
address is still a candidate dereferences a nil *big.Int in Go: `nilPanic`. -/
def updateSnapshotByVotesStep (headerNumber : Nat) (s : Snapshot) (vote : Vote) :
    Except AErr Snapshot :=
  if (alookup s.Votes vote.Voter).isSome then .ok s
  else if ¬ s.isCandidate vote.Candidate ∧ vote.Candidate ≠ vote.Voter then .ok s
  else
    let tallyE : Except AErr (List (Addr × Int)) :=
      if s.isCandidate vote.Candidate then
        match alookup s.Tally vote.Candidate with
        | none => .error .nilPanic
        | some t => .ok (ainsert s.Tally vote.Candidate (t + vote.Stake))
      else .ok (ainsert s.Tally vote.Candidate vote.Stake)
    match tallyE with
    | .error e => .error e
    | .ok tally' =>
      .ok { s with Tally := tally',
                   Votes := ainsert s.Votes vote.Voter vote,
                   Voters := ainsert s.Voters vote.Voter headerNumber,
                   Candidates := ainsert s.Candidates vote.Candidate
                     (((alookup s.Candidates vote.Candidate).getD []) ++ [vote]) }

/-- Snapshot.updateSnapshotByVotes (snapshot.go). -/
def Snapshot.updateSnapshotByVotes (s : Snapshot) (votes : List Vote) (headerNumber : Nat) :
    Except AErr Snapshot :=
  votes.foldlM (updateSnapshotByVotesStep headerNumber) s

/-- The passive cancels a candidate's cancellation cascades onto its voters
(body of the isCandidate branch of updateSnapshotByCancels, snapshot.go). -/
def candidateCascade (s : Snapshot) (x : Addr) : List Cancel :=
  (((alookup s.Candidates x).getD []).filter (fun v => v.Voter ≠ x)).map
    (fun v => { Canceler := v.Voter, Passive := true })

/-- The indexed loop of Snapshot.updateSnapshotByCancels (snapshot.go).  The
Go loop appends to the very slice it ranges over, so it can grow; the `fuel`
argument bounds the iteration count, exhaustion is an explicit error. -/
def updateSnapshotByCancelsAux (headerNumber : Nat) :
    Nat → Snapshot → List Cancel → Nat → Except AErr Snapshot
  | 0, s, cancels, i => if i < cancels.length then .error .fuelExhausted else .ok s
  | fuel + 1, s, cancels, i =>
    match cancels.get? i with
    | none => .ok s
    | some c =>
      if (alookup s.Cancels c.Canceler).isSome then
        updateSnapshotByCancelsAux headerNumber fuel s cancels (i + 1)
      else
        let cancels' :=
          if s.isCandidate c.Canceler then cancels ++ candidateCascade s c.Canceler else cancels
        match alookup s.Votes c.Canceler with
        | some vote =>
          match alookup s.Tally vote.Candidate with
          | some t =>
            let s' := { s with
              Tally := ainsert s.Tally vote.Candidate (t - vote.Stake),
              Cancels := ainsert s.Cancels c.Canceler { Canceler := c.Canceler, Passive := c.Passive },
              Cancelers := ainsert s.Cancelers c.Canceler headerNumber }
            updateSnapshotByCancelsAux headerNumber fuel s' cancels' (i + 1)
          | none => updateSnapshotByCancelsAux headerNumber fuel s cancels' (i + 1)
        | none => updateSnapshotByCancelsAux headerNumber fuel s cancels' (i + 1)

/-- Fuel for the cancel cascade; ample for every state reachable here. -/
def cancelsFuel (s : Snapshot) (cancels : List Cancel) : Nat :=
  let candSize := (s.Candidates.map (fun p => p.2.length)).sum
  (cancels.length + candSize + 1) * (candSize + 2)

/-- Snapshot.updateSnapshotByCancels (snapshot.go). -/
def Snapshot.updateSnapshotByCancels (s : Snapshot) (cancels : List Cancel)
    (headerNumber : Nat) : Except AErr Snapshot :=
  updateSnapshotByCancelsAux headerNumber (cancelsFuel s cancels) s cancels 0

/-- One iteration of the missing-signer loop of updateSnapshotForPunish
(snapshot.go): add missingPublishCredit while the current count is at most
10 * defaultFullCredit. -/
def punishMissingStep (punished : List (Addr × Nat)) (m : Addr) : List (Addr × Nat) :=
  match alookup punished m with
  | some v =>
    if v ≤ 10 * defaultFullCredit then ainsert punished m (v + missingPublishCredit) else punished
  | none => ainsert punished m missingPublishCredit

/-- Snapshot.updateSnapshotForPunish (snapshot.go): punish the missing
signers, reward the sealer, then auto-recover every punished entry by one. -/
def Snapshot.updateSnapshotForPunish (s : Snapshot) (signerMissing : List Addr)
    (headerNumber : Nat) (coinbase : Addr) : Snapshot :=
  let _ := headerNumber
  let punished := signerMissing.foldl punishMissingStep s.Punished
  let punished :=
    match alookup punished coinbase with
    | some v =>
      if v > signRewardCredit then ainsert punished coinbase (v - signRewardCredit)
      else aerase punished coinbase
    | none => punished
  let punished := punished.foldr
    (fun p acc => if p.2 > autoRewardCredit then (p.1, p.2 - autoRewardCredit) :: acc else acc) []
  { s with Punished := punished }

/-- The index loop removing a canceler's votes from a candidate list in
removeExtraVotesAndCancel (snapshot.go): Go's
append(a[:i], a[i+1:]...) followed by i++ (the element shifted into
position i is not re-examined).  fuel = initial length + 1 suffices. -/
def removeVoterVotesAux (canceler : Addr) : Nat → Nat → List Vote → List Vote
  | 0, _, l => l
  | fuel + 1, i, l =>
    if h : i < l.length then
      if (l.get ⟨i, h⟩).Voter = canceler then
        removeVoterVotesAux canceler fuel (i + 1) (l.eraseIdx i)
      else removeVoterVotesAux canceler fuel (i + 1) l
    else l

/-- One iteration of Snapshot.removeExtraVotesAndCancel (snapshot.go) for a
single (canceler, cancel) entry.  A missing Cancelers or Votes entry is a Go
nil dereference. -/
def gcStep (s : Snapshot) (entry : Addr × Cancel) : Except AErr Snapshot :=
  let canceler := entry.1
  let cancel := entry.2
  let condE : Except AErr Bool :=
    if cancel.Passive then
      match alookup s.Cancelers canceler with
      | none => .error .nilPanic
      | some c => .ok (decide (s.Number > u64 (c + 1)))
    else
      match alookup s.Cancelers cancel.Canceler with
      | none => .error .nilPanic
      | some c => .ok (decide (usub (s.Number + 1) c ≥ s.config.Freeze / s.config.Period))
  match condE with
  | .error e => .error e
  | .ok cond =>
    if cond then
      let sE : Except AErr Snapshot :=
        if s.isCandidate canceler then
          .ok { s with Punished := aerase s.Punished canceler,
                       Candidates := aerase s.Candidates canceler }
        else
          match alookup s.Votes canceler with
          | none => .error .nilPanic
          | some v =>
            match alookup s.Candidates v.Candidate with
            | none => .ok s
            | some l =>
              .ok { s with Candidates := ainsert s.Candidates v.Candidate
                             (removeVoterVotesAux canceler (l.length + 1) 0 l) }
      match sE with
      | .error e => .error e
      | .ok s' =>
        .ok { s' with Votes := aerase s'.Votes canceler, Voters := aerase s'.Voters canceler,
                      Cancels := aerase s'.Cancels canceler,
                      Cancelers := aerase s'.Cancelers canceler }
    else .ok s

/-- Snapshot.removeExtraVotesAndCancel (snapshot.go): every canceler whose
freeze has elapsed is garbage-collected. -/
def Snapshot.removeExtraVotesAndCancel (s : Snapshot) : Except AErr Snapshot :=
  s.Cancels.foldlM gcStep s

/-- Snapshot.updateSnapshotForExpired (snapshot.go), active part: expire old
confirmations (uint64 subtraction, so confirmations above the current number
underflow and expire as well) and drop non-positive tallies. -/
def Snapshot.updateSnapshotForExpired (s : Snapshot) : Snapshot :=
  { s with
    Confirmations := s.Confirmations.filter (fun p => ¬ usub s.Number p.1 > s.config.MaxSignerCount),
    Tally := s.Tally.filter (fun p => ¬ p.2 ≤ 0) }

/-- The tallyTarget accumulation over s.Votes in verifyTallyCnt (snapshot.go). -/
def tallyTargetOfVotes (votes : List (Addr × Vote)) : List (Addr × Int) :=
  votes.foldl (fun acc p =>
    match alookup acc p.2.Candidate with
    | some t => ainsert acc p.2.Candidate (t + p.2.Stake)
    | none => ainsert acc p.2.Candidate p.2.Stake) []

/-- Snapshot.verifyTallyCnt (snapshot.go).  A cancel whose canceler has no
vote dereferences a nil *Vote in Go. -/
def Snapshot.verifyTallyCnt (s : Snapshot) : Except AErr Unit :=
  let targetE : Except AErr (List (Addr × Int)) :=
    s.Cancels.foldlM (fun acc p =>
      match alookup s.Votes p.2.Canceler with
      | none => .error .nilPanic
      | some vote =>
        match alookup acc vote.Candidate with
        | some t => .ok (ainsert acc vote.Candidate (t - vote.Stake))
        | none => .ok acc) (tallyTargetOfVotes s.Votes)
  match targetE with
  | .error e => .error e
  | .ok target =>
    if s.Tally.all (fun p =>
        match alookup target p.1 with
        | some t => t == p.2
        | none => false)
    then .ok () else .error .incorrectTallyCount

/-- The history-hash update of one apply iteration (snapshot.go): truncate the
front to MaxSignerCount*2 - 1 entries when full, then append the header hash. -/
def histStep (maxSignerCount : Nat) (historyHash : List Hsh) (h : Hsh) : List Hsh :=
  (if historyHash.length ≥ maxSignerCount * 2 then
    (historyHash.drop 1).take (maxSignerCount * 2 - 1)
  else historyHash) ++ [h]

/-- The body of the header loop of Snapshot.apply (snapshot.go): author check,
extra decode, epoch fields, history hash, then the five sub-updates in order. -/
def processHeader (s : Snapshot) (header : Header) : Except AErr Snapshot :=
  match header.recovered with
  | none => .error .ecrecoverFailed
  | some coinbase =>
    if coinbase ≠ header.Coinbase then .error .unauthorized
    else match header.Extra with
      | none => .error .decodeFailed
      | some headerExtra =>
        let s1 := { s with HeaderTime := u64 header.Time,
                           LoopStartTime := headerExtra.LoopStartTime,
                           Signers := headerExtra.SignerQueue,
                           ConfirmedNumber := headerExtra.ConfirmedBlockNumber,
                           HistoryHash := histStep s.config.MaxSignerCount s.HistoryHash header.HHash }
        let s2 := s1.updateSnapshotByConfirmations headerExtra.CurrentBlockConfirmations
        match s2.updateSnapshotByVotes headerExtra.CurrentBlockVotes header.Number with
        | .error e => .error e
        | .ok s3 =>
          match s3.updateSnapshotByCancels headerExtra.CurrentBlockCancels header.Number with
          | .error e => .error e
          | .ok s4 =>
            (s4.updateSnapshotForPunish headerExtra.SignerMissing header.Number
              header.Coinbase).removeExtraVotesAndCancel

/-- The consecutive-numbering sanity check of Snapshot.apply (snapshot.go),
on uint64 views of the header numbers. -/
def chainOk : List Header → Bool
  | [] => true
  | [_] => true
  | h1 :: h2 :: rest => (u64 h2.Number == u64 (u64 h1.Number + 1)) && chainOk (h2 :: rest)

/-- Snapshot.apply (snapshot.go).  The receiver is deep-copied in Go and the
copy mutated; in this value-semantics embedding the copy is the value itself. -/
def Snapshot.apply (s : Snapshot) (headers : List Header) : Except AErr Snapshot :=
  match headers with
  | [] => .ok s
  | h0 :: rest =>
    if ¬ chainOk (h0 :: rest) then .error .invalidVotingChain
    else if u64 h0.Number ≠ u64 (s.Number + 1) then .error .invalidVotingChain
    else
      match (h0 :: rest).foldlM processHeader s with
      | .error e => .error e
      | .ok snap =>
        let snap := { snap with
          Number := u64 (snap.Number + (h0 :: rest).length),
          Hash := ((h0 :: rest).getLast (List.cons_ne_nil h0 rest)).HHash }
        let snap := snap.updateSnapshotForExpired
        match snap.verifyTallyCnt with
        | .error e => .error e
        | .ok _ => .ok snap

/-- Header-at-a-time application: S.apply([H1]).apply([H2])... -/
def Snapshot.applyIter (s : Snapshot) (headers : List Header) : Except AErr Snapshot :=
  headers.foldlM (fun acc h => acc.apply [h]) s

/-- One iteration of the genesis vote loop of newSnapshot (snapshot.go).
Note the source keys Candidates by the VOTER here. -/
def genesisVoteStep (s : Snapshot) (vote : Vote) : Snapshot :=
  { s with Votes := ainsert s.Votes vote.Voter vote,
           Tally := (match alookup s.Tally vote.Candidate with
                     | some t => ainsert s.Tally vote.Candidate (t + vote.Stake)
                     | none => ainsert s.Tally vote.Candidate (0 + vote.Stake)),
           Voters := ainsert s.Voters vote.Voter 0,
           Candidates := ainsert s.Candidates vote.Voter
             (((alookup s.Candidates vote.Voter).getD []) ++ [vote]) }

/-- newSnapshot (snapshot.go), the genesis snapshot.  `now` stands for
time.Now().Unix().  Go indexes SelfVoteSigners modulo its length (and panics
when it is empty); the empty case is modelled by the empty address. -/
def newSnapshot (config : AlienConfig) (hash : Hsh) (votes : List Vote) (lcrs : Nat)
    (now : Nat) : Snapshot :=
  let base : Snapshot := {
    config := config, LCRS := lcrs, Period := config.Period, Number := 0,
    ConfirmedNumber := 0, Hash := hash, HistoryHash := [hash],
    Signers := (List.range config.MaxSignerCount).map
      (fun i => config.SelfVoteSigners.getD (i % config.SelfVoteSigners.length) []),
    Votes := [], Tally := [], Voters := [], Cancels := [], Cancelers := [],
    Candidates := [], Punished := [], Confirmations := [],
    HeaderTime := now - 1, LoopStartTime := config.GenesisTimestamp }
  votes.foldl genesisVoteStep base

/-- Snapshot.getLastConfirmedBlockNumber (snapshot.go): merge the pending
confirmations into a copy, then walk i from Number down while
i > Number - MaxSignerCount*2/3 + 1 (uint64), returning the first height whose
confirmer list is longer than MaxSignerCount*2/3, else the final i. -/
def Snapshot.getLastConfirmedBlockNumber (s : Snapshot) (confirmations : List Confirmation) :
    Nat :=
  let cpy := confirmations.foldl addConfirmation s.Confirmations
  let threshold := s.config.MaxSignerCount * 2 / 3
  let bound := u64 (usub s.Number threshold + 1)
  let window := (List.range (s.Number - bound)).map (fun k => s.Number - k)
  (window.find? (fun i => ((alookup cpy i).getD []).length > threshold)).getD
    (if bound < s.Number then bound else s.Number)

/-- getSignerMissing's scan over the signer queue (alien.go): a linear pass
with a record flag armed at the previous signer and a break at the current
signer. -/
def getSignerMissingGo (lastSigner currentSigner : Addr) : Bool → List Addr → List Addr
  | _, [] => []
  | recordMissing, signer :: rest =>
    if signer = lastSigner then getSignerMissingGo lastSigner currentSigner true rest
    else if signer = currentSigner then []
    else if recordMissing then signer :: getSignerMissingGo lastSigner currentSigner recordMissing rest
    else getSignerMissingGo lastSigner currentSigner recordMissing rest

/-- getSignerMissing (alien.go). -/
def getSignerMissing (lastSigner currentSigner : Addr) (extra : HeaderExtra) : List Addr :=
  getSignerMissingGo lastSigner currentSigner false extra.SignerQueue

/-- Index of the first occurrence of an address in a queue (length if absent). -/
def idxOf (x : Addr) : List Addr → Nat
  | [] => 0
  | y :: rest => if y = x then 0 else idxOf x rest + 1

/-- Modelled from the spec: the signer-missing list as the segment of the
queue strictly between the previous and the current coinbase in cyclic order,
wrapping around the end of the queue when the current coinbase appears
earlier than the previous one (claim C4's reading). -/
def specSignerMissingCyclic (lastSigner currentSigner : Addr) (queue : List Addr) : List Addr :=
  let i := idxOf lastSigner queue
  (queue.drop (i + 1) ++ queue.take i).takeWhile (fun a => a ≠ currentSigner)

/-- The unfreeze loop of Alien.Finalize (alien.go): for each cancel whose
freeze window elapses at this block number, credit the canceler's balance by
the original vote's stake.  The credited (address, stake) pairs are returned
in iteration order. -/
def finalizeUnfreezeGo (snap : Snapshot) (number : Nat) :
    List (Addr × Cancel) → Except AErr (List (Addr × Int))
  | [] => .ok []
  | (canceler, cancel) :: rest =>
    let condE : Except AErr Bool :=
      if cancel.Passive then
        match alookup snap.Cancelers canceler with
        | none => .error .nilPanic
        | some c => .ok (number == u64 (1 + c))
      else
        match alookup snap.Cancelers canceler with
        | none => .error .nilPanic
        | some c => .ok (u64 (number + 2) == u64 (c + snap.config.Freeze / snap.config.Period))
    match condE with
    | .error e => .error e
    | .ok cond =>
      match finalizeUnfreezeGo snap number rest with
      | .error e => .error e
      | .ok credits =>
        if cond then
          match alookup snap.Votes canceler with
          | some vote => .ok ((cancel.Canceler, vote.Stake) :: credits)
          | none => .ok credits
        else .ok credits

/-- The "add balance for cancels" block of Alien.Finalize (alien.go). -/
def finalizeUnfreeze (snap : Snapshot) (number : Nat) : Except AErr (List (Addr × Int)) :=
  finalizeUnfreezeGo snap number snap.Cancels

/-- Go bytes.Compare: lexicographic byte comparison returning -1, 0 or 1. -/
def bytesCompare : List Nat → List Nat → Int
  | [], [] => 0
  | [], _ :: _ => -1
  | _ :: _, [] => 1
  | a :: as, b :: bs => if a < b then -1 else if b < a then 1 else bytesCompare as bs

/-- TallyItem (signer_queue.go): a candidate address with its weighted stake. -/
structure TallyItem where
  addr : Addr
  stake : Int
deriving DecidableEq, Repr

/-- TallySlice.Less (signer_queue.go): reverse sort, stake descending, ties
broken by bytes.Compare on the addresses, greater bytes first. -/
def tallyItemLess (x y : TallyItem) : Bool :=
  if x.stake > y.stake then true
  else if x.stake < y.stake then false
  else bytesCompare x.addr y.addr > 0

/-- The balance branch of Alien.processEventVote (custom_tx.go): debit and
append only when the voter's balance is strictly greater than the stake and
the voter has not already voted in the pending list. -/
def processEventVoteBalance (currentBlockVotes : List Vote) (balance : Int)
    (voter toAddr : Addr) (value : Int) (txHash : Hsh) : List Vote × Int :=
  if balance > value then
    if currentBlockVotes.any (fun v => v.Voter == voter) then (currentBlockVotes, balance)
    else (currentBlockVotes ++ [{ Voter := voter, Candidate := toAddr, Stake := value, Hash := txHash }],
          balance - value)
  else (currentBlockVotes, balance)

/-- Alien.processEventVote (custom_tx.go), from the point where the stake
string has been parsed (`parsedValue`, none = SetString failure) and the
snapshot has been fetched.  `snapVotes`/`snapCandidates` are the snapshot's
vote and candidate maps, `balance` the voter's state balance. -/
def processEventVote (snapVotes : List (Addr × Vote)) (snapCandidates : List (Addr × List Vote))
    (minVoteValue selfVoteValue : Int) (currentBlockVotes : List Vote) (balance : Int)
    (voter toAddr : Addr) (parsedValue : Option Int) (txHash : Hsh) : List Vote × Int :=
  match parsedValue with
  | none => (currentBlockVotes, balance)
  | some value =>
    if (alookup snapVotes voter).isSome then (currentBlockVotes, balance)
    else if voter ≠ toAddr then
      if value < minVoteValue then (currentBlockVotes, balance)
      else if (alookup snapCandidates toAddr).isNone then (currentBlockVotes, balance)
      else processEventVoteBalance currentBlockVotes balance voter toAddr value txHash
    else
      if value < selfVoteValue then (currentBlockVotes, balance)
      else processEventVoteBalance currentBlockVotes balance voter toAddr value txHash

/-- API.GetRemainingFreezeTime / GetSideRemainingFreezeTime (api.go), the
arithmetic core shared by both: all quantities are uint64, the subtraction
unfreezeTime - currentTime wraps, and `remaining <= 0` can only clamp the
exact-zero case. -/
def getRemainingFreezeTime (cancelTime currentTime freeze period : Nat) : Nat :=
  let freezeTime := freeze / period
  let unfreezeTime := u64 (cancelTime + freezeTime)
  let remaining := usub unfreezeTime currentTime
  let remaining := if remaining ≤ 0 then 0 else remaining
  u64 (remaining * period)

/-- The guard `remaining <= 0` of GetRemainingFreezeTime (api.go). -/
def remainingClampTaken (cancelTime currentTime freeze period : Nat) : Bool :=
  usub (u64 (cancelTime + freeze / period)) currentTime ≤ 0

/-- Models the Go statement
s.Candidates[candidate] = append(s.Candidates[candidate][:i], s.Candidates[candidate][i+1:]...)
of removeExtraVotesAndCancel at the backing-array level: positions below i
keep their elements, positions i .. len-2 receive the element one slot to the
right, and positions from len-1 on (beyond the new length) keep their old
contents.  When the array is still shared with the snapshot the copy was made
from (Snapshot.copy copies the Candidates map but shares each vote slice),
these writes are visible through the original snapshot's slice as well. -/
def goSliceRemoveBacking {α : Type} (backing : List α) (len i : Nat) : List α :=
  backing.take i ++ ((backing.take len).drop (i + 1)) ++ backing.drop (len - 1)

/-- The original snapshot's view of a shared candidate slice after the copy
removed index i in place: the first origLen entries of the mutated backing
array. -/
def goSharedSliceView {α : Type} (backing : List α) (origLen len i : Nat) : List α :=
  (goSliceRemoveBacking backing len i).take origLen

deriving instance DecidableEq for Except

/-- A small consensus configuration for the concrete evaluations below
(Period 5, MaxSignerCount 21, Freeze 20, as the defaults of alien.go). -/
def exCfg : AlienConfig :=
  { Period := 5, MaxSignerCount := 21, MinVoteValue := 100, SelfVoteValue := 500,
    Freeze := 20, GenesisTimestamp := 0, SelfVoteSigners := [[1]] }

/-- An empty snapshot at height 0 used as base of the concrete evaluations. -/
def emptySnap : Snapshot :=
  { config := exCfg, LCRS := 1, Period := 5, Number := 0, ConfirmedNumber := 0,
    Hash := 100, HistoryHash := [100], Signers := [], Votes := [], Tally := [],
    Voters := [], Cancels := [], Cancelers := [], Candidates := [], Punished := [],
    Confirmations := [], HeaderTime := 0, LoopStartTime := 0 }

/-- A HeaderExtra with no events. -/
def emptyExtra : HeaderExtra :=
  { CurrentBlockConfirmations := [], CurrentBlockVotes := [], CurrentBlockCancels := [],
    LoopStartTime := 0, SignerQueue := [], SignerMissing := [], ConfirmedBlockNumber := 0 }

/-- Header 1 of the C1 evaluation: carries one confirmation for block 2, a
height above the one being applied. -/
def exH1 : Header :=
  { Number := 1, Time := 5, Coinbase := [7], HHash := 101, recovered := some [7],
    Extra := some { emptyExtra with
      CurrentBlockConfirmations := [{ Signer := [9], BlockNumber := 2 }] } }

/-- Header 2 of the C1 evaluation: no events. -/
def exH2 : Header :=
  { Number := 2, Time := 10, Coinbase := [7], HHash := 102, recovered := some [7],
    Extra := some emptyExtra }

/-- C3 evaluation: a snapshot whose only punished entry sits exactly at the
claimed cap 10 * defaultFullCredit = 10000. -/
def punishSnap : Snapshot := { emptySnap with Punished := [([3], 10000)] }

/-- C3 evaluation: header 1 reporting signer [3] as missing. -/
def punishHeader : Header :=
  { Number := 1, Time := 5, Coinbase := [7], HHash := 101, recovered := some [7],
    Extra := some { emptyExtra with SignerMissing := [[3]] } }

/-- C5 evaluation: a snapshot with one active (non-passive) cancel by [13],
recorded at block 10, whose vote of stake 7 is still present.  With
Freeze/Period = 20/5 = 4 the claim predicts the credit at height 14. -/
def cancelSnap : Snapshot :=
  { emptySnap with
    Cancels := [([13], { Canceler := [13], Passive := false })],
    Cancelers := [([13], 10)],
    Votes := [([13], { Voter := [13], Candidate := [14], Stake := 7, Hash := 0 })] }

/-- C4 evaluation: a five-entry signer queue in which the current coinbase [1]
appears before the previous coinbase [3]. -/
def wrapQueueExtra : HeaderExtra :=
  { emptyExtra with SignerQueue := [[0], [1], [2], [3], [4]] }

/-- The history-hash transform of a whole header list, in order. -/
def histFold (m : Nat) (hist : List Hsh) (headers : List Header) : List Hsh :=
  headers.foldl (fun acc h => histStep m acc h.HHash) hist

/-- The snapshot fields never touched by the per-header sub-updates
(confirmations, votes, cancels, punish, garbage collection): everything
except the seven map fields. -/
def sameCore (s t : Snapshot) : Prop :=
  t.config = s.config ∧ t.LCRS = s.LCRS ∧ t.Period = s.Period ∧ t.Number = s.Number ∧
  t.Hash = s.Hash ∧ t.HeaderTime = s.HeaderTime ∧ t.LoopStartTime = s.LoopStartTime ∧
  t.Signers = s.Signers ∧ t.ConfirmedNumber = s.ConfirmedNumber ∧
  t.HistoryHash = s.HistoryHash

/-- Append an address to a confirmer list unless already present (the
per-entry effect of addConfirmation on its own block number). -/
def insertAbsentAddr (l : List Addr) (a : Addr) : List Addr :=
  if a ∈ l then l else l ++ [a]

/-- Modelled from the spec: the number of distinct signers confirming height n
once the snapshot confirmations are merged with the pending ones. -/
def specConfirmerCount (s : Snapshot) (pending : List Confirmation) (n : Nat) : Nat :=
  (((alookup s.Confirmations n).getD []) ++
    ((pending.filter (fun c => u64 c.BlockNumber == n)).map (fun c => c.Signer))).dedup.length

/-- Modelled from the spec: starting at snap.number, walk downward; the first
height n at least number - (2/3)maxSignerCount + 1 whose merged confirmation
set holds more than (2/3)maxSignerCount distinct signers wins; otherwise the
floor of that window. -/
def specConfirmedNumber (s : Snapshot) (pending : List Confirmation) : Nat :=
  let threshold := s.config.MaxSignerCount * 2 / 3
  let floorW := s.Number - threshold + 1
  let window := (List.range (s.Number + 1 - floorW)).map (fun k => s.Number - k)
  (window.find? (fun n => specConfirmerCount s pending n > threshold)).getD floorW

/-- C6 evaluation: a snapshot at height 20 with no stored confirmations. -/
def confSnap : Snapshot := { emptySnap with Number := 20 }

/-- C6 evaluation: fifteen distinct signers confirming block 15. -/
def pending15 : List Confirmation :=
  (List.range 15).map (fun k => { Signer := [k], BlockNumber := 15 })

theorem alookup_ainsert_self {K V : Type} [DecidableEq K] (m : List (K × V)) (k : K) (v : V) :
    alookup (ainsert m k v) k = some v := by
  induction m with
  | nil => simp [ainsert, alookup]
  | cons p rest ih =>
    by_cases h : p.1 = k
    · simp [ainsert, h, alookup]
    · simp [ainsert, h, alookup, ih]

theorem alookup_ainsert_ne {K V : Type} [DecidableEq K] (m : List (K × V)) (k k' : K) (v : V)
    (h : k' ≠ k) : alookup (ainsert m k v) k' = alookup m k' := by
  have hk : ¬ k = k' := fun hh => h hh.symm
  induction m with
  | nil => simp [ainsert, alookup, hk]
  | cons p rest ih =>
    by_cases hp : p.1 = k
    · simp only [ainsert, if_pos hp, alookup, if_neg hk]
      rw [hp, if_neg hk]
    · simp only [ainsert, if_neg hp, alookup]
      by_cases hp' : p.1 = k'
      · simp [hp']
      · simp [hp', ih]

theorem mem_ainsert {K V : Type} [DecidableEq K] (m : List (K × V)) (k : K) (v : V) :
    ∀ p ∈ ainsert m k v, p ∈ m ∨ p = (k, v) := by
  induction m with
  | nil => simp [ainsert]
  | cons q rest ih =>
    by_cases h : q.1 = k
    · intro p hp
      simp only [ainsert, if_pos h, List.mem_cons] at hp
      rcases hp with hp | hp
      · right; exact hp
      · left; exact List.mem_cons_of_mem _ hp
    · intro p hp
      simp only [ainsert, if_neg h, List.mem_cons] at hp
      rcases hp with hp | hp
      · left; exact hp ▸ List.mem_cons_self _ _
      · rcases ih p hp with h' | h'
        · left; exact List.mem_cons_of_mem _ h'
        · right; exact h'

theorem mem_aerase {K V : Type} [DecidableEq K] (m : List (K × V)) (k : K) :
    ∀ p ∈ aerase m k, p ∈ m := by
  induction m with
  | nil => simp [aerase]
  | cons q rest ih =>
    by_cases h : q.1 = k
    · intro p hp
      simp only [aerase, if_pos h] at hp
      exact List.mem_cons_of_mem _ (ih p hp)
    · intro p hp
      simp only [aerase, if_neg h, List.mem_cons] at hp
      rcases hp with hp | hp
      · exact hp ▸ List.mem_cons_self _ _
      · exact List.mem_cons_of_mem _ (ih p hp)

theorem alookup_mem {K V : Type} [DecidableEq K] (m : List (K × V)) (k : K) (v : V)
    (h : alookup m k = some v) : (k, v) ∈ m := by
  induction m with
  | nil => simp [alookup] at h
  | cons p rest ih =>
    by_cases hp : p.1 = k
    · simp only [alookup, if_pos hp, Option.some.injEq] at h
      have hpv : p = (k, v) := by cases p; simp_all
      exact List.mem_cons.mpr (Or.inl hpv.symm)
    · simp only [alookup, if_neg hp] at h
      exact List.mem_cons_of_mem _ (ih h)

theorem bytesCompare_self : ∀ a : List Nat, bytesCompare a a = 0 := by
  intro a
  induction a with
  | nil => rfl
  | cons x xs ih => simp [bytesCompare, ih]

theorem bytesCompare_cases : ∀ a b : List Nat,
    bytesCompare a b = -1 ∨ bytesCompare a b = 0 ∨ bytesCompare a b = 1 := by
  intro a
  induction a with
  | nil => intro b; cases b <;> simp [bytesCompare]
  | cons x xs ih =>
    intro b
    cases b with
    | nil => simp [bytesCompare]
    | cons y ys =>
      simp only [bytesCompare]
      by_cases h1 : x < y
      · simp [h1]
      · by_cases h2 : y < x
        · simp [h1, h2]
        · simpa [h1, h2] using ih ys

theorem bytesCompare_eq_zero_iff : ∀ a b : List Nat, bytesCompare a b = 0 ↔ a = b := by
  intro a
  induction a with
  | nil => intro b; cases b <;> simp [bytesCompare]
  | cons x xs ih =>
    intro b
    cases b with
    | nil => simp [bytesCompare]
    | cons y ys =>
      simp only [bytesCompare]
      by_cases h1 : x < y
      · simp [h1]
        omega
      · by_cases h2 : y < x
        · simp [h1, h2]
          omega
        · have hxy : x = y := by omega
          simp [h1, h2, hxy, ih]

theorem bytesCompare_swap : ∀ a b : List Nat, bytesCompare b a = - bytesCompare a b := by
  intro a
  induction a with
  | nil => intro b; cases b <;> simp [bytesCompare]
  | cons x xs ih =>
    intro b
    cases b with
    | nil => simp [bytesCompare]
    | cons y ys =>
      simp only [bytesCompare]
      by_cases h1 : x < y
      · simp [h1, lt_asymm h1]
      · by_cases h2 : y < x
        · simp [h1, h2]
        · simp [h1, h2, ih ys]

theorem bytesCompare_pos_trans : ∀ a b c : List Nat,
    0 < bytesCompare a b → 0 < bytesCompare b c → 0 < bytesCompare a c := by
  intro a
  induction a with
  | nil =>
    intro b c hab _
    exfalso
    cases b <;> simp [bytesCompare] at hab
  | cons x xs ih =>
    intro b c hab hbc
    cases b with
    | nil => cases c <;> simp [bytesCompare] at hbc ⊢
    | cons y ys =>
      cases c with
      | nil => simp [bytesCompare]
      | cons z zs =>
        simp only [bytesCompare] at hab hbc ⊢
        by_cases h1 : x < y
        · simp [h1] at hab
        · by_cases h2 : y < x
          · -- x > y; need x > z or deeper
            by_cases h3 : y < z
            · simp [h3] at hbc
            · by_cases h4 : z < y
              · have : z < x := lt_trans h4 h2
                simp [this, lt_asymm this]
              · have hyz : y = z := by omega
                subst hyz
                simp [h2, lt_asymm h2]
          · have hxy : x = y := by omega
            subst hxy
            by_cases h3 : x < z
            · simp [h3] at hbc
            · by_cases h4 : z < x
              · simp [h4, lt_asymm h4]
              · have hxz : x = z := by omega
                subst hxz
                simp [lt_irrefl] at hab hbc ⊢
                exact ih ys zs hab hbc

theorem tallyItemLess_iff (x y : TallyItem) :
    tallyItemLess x y = true ↔
      (y.stake < x.stake ∨ (x.stake = y.stake ∧ 0 < bytesCompare x.addr y.addr)) := by
  unfold tallyItemLess
  by_cases h1 : x.stake > y.stake
  · simp only [if_pos h1, true_iff]
    exact Or.inl h1
  · by_cases h2 : x.stake < y.stake
    · simp only [if_neg h1, if_pos h2, false_iff]
      simp only [Bool.false_eq_true, false_iff] at *
      rintro (h | ⟨heq, _⟩)
      · exact h1 h
      · omega
    · have heq : x.stake = y.stake := le_antisymm (not_lt.mp h1) (not_lt.mp h2)
      simp only [if_neg h1, if_neg h2, decide_eq_true_eq, gt_iff_lt]
      constructor
      · intro h
        exact Or.inr ⟨heq, h⟩
      · rintro (h | ⟨_, h⟩)
        · exact absurd h h1
        · exact h

/-- C7 (confirmed): the tally-slice comparator is a strict total order,
sorting by weighted stake descending with ties broken by address bytes
descending: irreflexive, transitive, total on distinct items, and on equal
stakes it ranks first the item whose address bytes compare greater. -/
theorem tallyItemLess_strict_total_order :
    (∀ x : TallyItem, tallyItemLess x x = false) ∧
    (∀ x y z : TallyItem,
      tallyItemLess x y = true → tallyItemLess y z = true → tallyItemLess x z = true) ∧
    (∀ x y : TallyItem, x ≠ y → tallyItemLess x y = true ∨ tallyItemLess y x = true) ∧
    (∀ x y : TallyItem, x.stake = y.stake →
      (tallyItemLess x y = true ↔ bytesCompare x.addr y.addr > 0)) := by
  refine ⟨?_, ?_, ?_, ?_⟩
  · intro x
    by_cases h : tallyItemLess x x = true
    · rcases (tallyItemLess_iff x x).mp h with h' | ⟨_, h'⟩
      · exact absurd h' (lt_irrefl _)
      · rw [bytesCompare_self] at h'
        exact absurd h' (lt_irrefl _)
    · simpa using h
  · intro x y z hxy hyz
    rw [tallyItemLess_iff] at hxy hyz ⊢
    rcases hxy with h1 | ⟨he1, hb1⟩ <;> rcases hyz with h2 | ⟨he2, hb2⟩
    · exact Or.inl (lt_trans h2 h1)
    · exact Or.inl (he2 ▸ h1)
    · exact Or.inl (he1.symm ▸ h2)
    · exact Or.inr ⟨he1.trans he2, bytesCompare_pos_trans _ _ _ hb1 hb2⟩
  · intro x y hne
    rw [tallyItemLess_iff, tallyItemLess_iff]
    rcases lt_trichotomy x.stake y.stake with h | h | h
    · exact Or.inr (Or.inl h)
    · rcases bytesCompare_cases x.addr y.addr with hb | hb | hb
      · refine Or.inr (Or.inr ⟨h.symm, ?_⟩)
        rw [bytesCompare_swap, hb]
        norm_num
      · exfalso
        apply hne
        have ha : x.addr = y.addr := (bytesCompare_eq_zero_iff _ _).mp hb
        obtain ⟨xa, xs⟩ := x
        obtain ⟨ya, ys⟩ := y
        simp_all
      · exact Or.inl (Or.inr ⟨h, by rw [hb]; norm_num⟩)
    · exact Or.inl (Or.inl h)
  · intro x y h
    rw [tallyItemLess_iff]
    constructor
    · rintro (h' | ⟨_, h'⟩)
      · omega
      · exact h'
    · intro h'
      exact Or.inr ⟨h, h'⟩

/-- C7 witness: concrete items with equal stake; the greater address bytes
come first and the order is irreflexive there. -/
theorem tallyItemLess_strict_total_order_witness :
    tallyItemLess { addr := [2], stake := 5 } { addr := [2], stake := 5 } = false ∧
    (({ addr := [3], stake := 5 } : TallyItem) ≠ { addr := [2], stake := 5 } →
      tallyItemLess { addr := [3], stake := 5 } { addr := [2], stake := 5 } = true ∨
      tallyItemLess { addr := [2], stake := 5 } { addr := [3], stake := 5 } = true) :=
  ⟨tallyItemLess_strict_total_order.1 _,
   tallyItemLess_strict_total_order.2.2.1 _ _⟩

/-- C10 (confirmed): in GetRemainingFreezeTime (and the identical arithmetic
of its side-chain variant), once the current block number strictly exceeds
cancel number + freeze/period, the uint64 subtraction wraps and the RPC
returns the enormous value (2^64 - overshoot) * period (mod 2^64) instead of
0; the `remaining <= 0` clamp can only fire when the two heights are exactly
equal. -/
theorem remainingFreezeTime_underflow :
    (∀ cancelTime currentTime freeze period : Nat,
      cancelTime + freeze / period < 2 ^ 64 → currentTime < 2 ^ 64 →
      (remainingClampTaken cancelTime currentTime freeze period = true ↔
        cancelTime + freeze / period = currentTime)) ∧
    (∀ cancelTime currentTime freeze period : Nat,
      cancelTime + freeze / period < 2 ^ 64 → currentTime < 2 ^ 64 →
      cancelTime + freeze / period < currentTime →
      0 < (currentTime - (cancelTime + freeze / period)) * period →
      (currentTime - (cancelTime + freeze / period)) * period < 2 ^ 64 →
      getRemainingFreezeTime cancelTime currentTime freeze period =
        2 ^ 64 - (currentTime - (cancelTime + freeze / period)) * period) := by
  constructor
  · intro cancelTime currentTime freeze period hu hc
    simp only [remainingClampTaken, usub, u64, decide_eq_true_eq]
    generalize hk : cancelTime + freeze / period = k at hu ⊢
    omega
  · intro cancelTime currentTime freeze period hu hc hlt hpos hlt2
    simp only [getRemainingFreezeTime, usub, u64]
    generalize hk : cancelTime + freeze / period = k at hu hlt hpos hlt2 ⊢
    have h1 : k % 2 ^ 64 = k := Nat.mod_eq_of_lt hu
    rw [h1]
    have h2 : (k % 2 ^ 64 + 2 ^ 64 - currentTime % 2 ^ 64) % 2 ^ 64
        = 2 ^ 64 - (currentTime - k) := by
      omega
    rw [h2]
    have h3 : ¬ (2 ^ 64 - (currentTime - k) ≤ 0) := by omega
    rw [if_neg h3]
    set d := currentTime - k with hd
    have hper : 0 < period := by
      rcases Nat.eq_zero_or_pos period with h | h
      · rw [h, Nat.mul_zero] at hpos
        exact absurd hpos (lt_irrefl 0)
      · exact h
    rw [Nat.sub_mul]
    have hX : 2 ^ 64 * 1 ≤ 2 ^ 64 * period := Nat.mul_le_mul_left _ hper
    have hstep : 2 ^ 64 * period - d * period = 2 ^ 64 * (period - 1) + (2 ^ 64 - d * period) := by
      rw [Nat.mul_sub]
      omega
    rw [hstep, Nat.mul_add_mod]
    exact Nat.mod_eq_of_lt (by omega)

/-- C10 witness: cancel at block 10, freeze 20, period 5 (freeze window 4
blocks), queried at height 20 - six blocks past the unfreeze height. -/
theorem remainingFreezeTime_underflow_witness :
    (remainingClampTaken 10 20 20 5 = true ↔ 10 + 20 / 5 = 20) ∧
    getRemainingFreezeTime 10 20 20 5 = 2 ^ 64 - (20 - (10 + 20 / 5)) * 5 :=
  ⟨remainingFreezeTime_underflow.1 10 20 20 5 (by norm_num) (by norm_num),
   remainingFreezeTime_underflow.2 10 20 20 5 (by norm_num) (by norm_num) (by norm_num)
     (by norm_num) (by norm_num)⟩

theorem getSignerMissingGo_true (a c : Addr) :
    ∀ l : List Addr, a ∉ l →
      getSignerMissingGo a c true l = l.takeWhile (fun s => s ≠ c) := by
  intro l
  induction l with
  | nil => intro _; rfl
  | cons x rest ih =>
    intro hna
    have hxa : x ≠ a := fun h => hna (h ▸ List.mem_cons_self _ _)
    have hrest : a ∉ rest := fun h => hna (List.mem_cons_of_mem _ h)
    by_cases hxc : x = c
    · have hca : ¬ (c = a) := hxc ▸ hxa
      simp [getSignerMissingGo, hxa, hxc, hca, List.takeWhile]
    · simp [getSignerMissingGo, hxa, hxc, List.takeWhile, ih hrest]

theorem takeWhile_ne_eq_take (c : Addr) :
    ∀ l : List Addr, l.takeWhile (fun s => s ≠ c) = l.take (idxOf c l) := by
  intro l
  induction l with
  | nil => rfl
  | cons x rest ih =>
    rw [List.takeWhile_cons]
    by_cases hxc : x = c
    · rw [if_neg (by simp [hxc])]
      simp [idxOf, hxc]
    · rw [if_pos (by simp [hxc])]
      have hidx : idxOf c (x :: rest) = idxOf c rest + 1 := by simp [idxOf, hxc]
      rw [hidx, List.take_succ_cons, ih]

theorem gsmGo_false_spec :
    ∀ (q : List Addr) (a c : Addr), q.Nodup → a ∈ q → c ∈ q → a ≠ c →
      getSignerMissingGo a c false q =
        if idxOf a q < idxOf c q then
          (q.drop (idxOf a q + 1)).take (idxOf c q - (idxOf a q + 1))
        else [] := by
  intro q
  induction q with
  | nil => intro a c _ ha _ _; simp at ha
  | cons x rest ih =>
    intro a c hnd ha hc hac
    rcases List.nodup_cons.mp hnd with ⟨hxrest, hndrest⟩
    by_cases hxa : x = a
    · have hxc : ¬ x = c := fun h => hac (hxa.symm.trans h)
      have hcrest : c ∈ rest := by
        rcases List.mem_cons.mp hc with h | h
        · exact absurd (h.trans hxa).symm hac
        · exact h
      have harest : a ∉ rest := fun hmem => hxrest (by rw [hxa]; exact hmem)
      have hidxa : idxOf a (x :: rest) = 0 := by simp [idxOf, hxa]
      have hidxc : idxOf c (x :: rest) = idxOf c rest + 1 := by simp [idxOf, hxc]
      rw [hidxa, hidxc, if_pos (Nat.succ_pos _)]
      have hgo : getSignerMissingGo a c false (x :: rest) = getSignerMissingGo a c true rest := by
        simp [getSignerMissingGo, hxa]
      rw [hgo, getSignerMissingGo_true _ _ _ harest, takeWhile_ne_eq_take]
      simp
    · by_cases hxc : x = c
      · have hidxc : idxOf c (x :: rest) = 0 := by simp [idxOf, hxc]
        have hca : ¬ c = a := fun h => hac h.symm
        have hgo : getSignerMissingGo a c false (x :: rest) = [] := by
          simp [getSignerMissingGo, hxa, hxc, hca]
        rw [hgo, hidxc, if_neg (by omega)]
      · have harest : a ∈ rest := by
          rcases List.mem_cons.mp ha with h | h
          · exact absurd h.symm hxa
          · exact h
        have hcrest : c ∈ rest := by
          rcases List.mem_cons.mp hc with h | h
          · exact absurd h.symm hxc
          · exact h
        have hidxa : idxOf a (x :: rest) = idxOf a rest + 1 := by simp [idxOf, hxa]
        have hidxc : idxOf c (x :: rest) = idxOf c rest + 1 := by simp [idxOf, hxc]
        have hgo : getSignerMissingGo a c false (x :: rest) = getSignerMissingGo a c false rest := by
          simp [getSignerMissingGo, hxa, hxc]
        rw [hgo, hidxa, hidxc, ih a c hndrest harest hcrest hac]
        by_cases hlt : idxOf a rest < idxOf c rest
        · rw [if_pos hlt, if_pos (by omega)]
          have hdrop : (x :: rest).drop (idxOf a rest + 1 + 1) = rest.drop (idxOf a rest + 1) := rfl
          rw [hdrop]
          congr 1
          omega
        · rw [if_neg hlt, if_neg (by omega)]

/-- C4 (counterexample): with signer queue [x0, c, x2, a, x4], previous
coinbase a and current coinbase c, the cyclic strictly-between segment of the
claim is [x4, x0], but getSignerMissing breaks at c before the record flag is
armed and returns the empty list: no wrap-around happens. -/
theorem getSignerMissing_no_wraparound_at_concrete :
    getSignerMissing [3] [1] wrapQueueExtra = [] ∧
    specSignerMissingCyclic [3] [1] wrapQueueExtra.SignerQueue = [[4], [0]] ∧
    ([] : List Addr) ≠ [[4], [0]] := by
  refine ⟨by decide, by decide, by decide⟩

/-- C4 (corrected): the signer-missing list is the linear (non-wrapping)
segment of the queue strictly after the first occurrence of the previous
coinbase and strictly before the current coinbase; when the current coinbase
appears before the previous one the scan stops early and the list is empty. -/
theorem getSignerMissing_linear_segment (extra : HeaderExtra) (a c : Addr)
    (hnd : extra.SignerQueue.Nodup) (ha : a ∈ extra.SignerQueue)
    (hc : c ∈ extra.SignerQueue) (hac : a ≠ c) :
    getSignerMissing a c extra =
      if idxOf a extra.SignerQueue < idxOf c extra.SignerQueue then
        (extra.SignerQueue.drop (idxOf a extra.SignerQueue + 1)).take
          (idxOf c extra.SignerQueue - (idxOf a extra.SignerQueue + 1))
      else [] :=
  gsmGo_false_spec extra.SignerQueue a c hnd ha hc hac

/-- C4 witness: in the queue [[0], [1], [2], [3], [4]] with previous signer
[0] and current signer [3], the missing segment is [[1], [2]]. -/
theorem getSignerMissing_linear_segment_witness :
    getSignerMissing [0] [3] wrapQueueExtra =
      if idxOf [0] wrapQueueExtra.SignerQueue < idxOf [3] wrapQueueExtra.SignerQueue then
        (wrapQueueExtra.SignerQueue.drop (idxOf [0] wrapQueueExtra.SignerQueue + 1)).take
          (idxOf [3] wrapQueueExtra.SignerQueue - (idxOf [0] wrapQueueExtra.SignerQueue + 1))
      else [] :=
  getSignerMissing_linear_segment wrapQueueExtra [0] [3] (by decide) (by decide) (by decide)
    (by decide)

/-- The freeze-elapse condition a cancels entry must meet at `number` for the
unfreeze loop of Alien.Finalize to credit it. -/
def unfreezeDue (snap : Snapshot) (number : Nat) (cancel : Cancel) (c : Nat) : Prop :=
  (cancel.Passive = true ∧ number = u64 (1 + c)) ∨
  (cancel.Passive = false ∧
    u64 (number + 2) = u64 (c + snap.config.Freeze / snap.config.Period))

theorem finalizeUnfreezeGo_mem (snap : Snapshot) (number : Nat) :
    ∀ (l : List (Addr × Cancel)) (credits : List (Addr × Int)),
      finalizeUnfreezeGo snap number l = .ok credits →
      ∀ y st, ((y, st) ∈ credits ↔ ∃ x cancel c vote,
        (x, cancel) ∈ l ∧ cancel.Canceler = y ∧
        alookup snap.Cancelers x = some c ∧ alookup snap.Votes x = some vote ∧
        vote.Stake = st ∧ unfreezeDue snap number cancel c) := by
  intro l
  induction l with
  | nil =>
    intro credits h y st
    simp only [finalizeUnfreezeGo] at h
    cases h
    simp
  | cons p rest ih =>
    intro credits h y st
    obtain ⟨canceler, cancel⟩ := p
    simp only [finalizeUnfreezeGo] at h
    cases hp : cancel.Passive with
    | true =>
      rw [hp] at h
      simp only [if_true] at h
      cases hl : alookup snap.Cancelers canceler with
      | none => rw [hl] at h; dsimp only at h; cases h
      | some c0 =>
        cases hrec : finalizeUnfreezeGo snap number rest with
        | error e => rw [hl] at h; dsimp only at h; rw [hrec] at h; dsimp only at h; cases h
        | ok credits' =>
          rw [hl] at h
          dsimp only at h
          rw [hrec] at h
          dsimp only at h
          have ihr := ih credits' hrec y st
          cases hcond : (number == u64 (1 + c0)) with
          | false =>
            rw [hcond] at h
            simp only [Bool.false_eq_true, if_false] at h
            cases h
            rw [ihr]
            constructor
            · rintro ⟨x, cl, c, vote, hm, rest'⟩
              exact ⟨x, cl, c, vote, List.mem_cons_of_mem _ hm, rest'⟩
            · rintro ⟨x, cl, c, vote, hm, hy, hc, hv, hst, hdue⟩
              rcases List.mem_cons.mp hm with hm | hm
              · exfalso
                injection hm with h1 h2
                subst h1
                subst h2
                rw [hl] at hc
                injection hc with hc
                subst hc
                rcases hdue with ⟨_, hn⟩ | ⟨hpas, _⟩
                · rw [hn] at hcond
                  simp at hcond
                · rw [hp] at hpas
                  cases hpas
              · exact ⟨x, cl, c, vote, hm, hy, hc, hv, hst, hdue⟩
          | true =>
            rw [hcond] at h
            simp only [if_true] at h
            cases hv : alookup snap.Votes canceler with
            | none =>
              rw [hv] at h
              cases h
              rw [ihr]
              constructor
              · rintro ⟨x, cl, c, vote, hm, rest'⟩
                exact ⟨x, cl, c, vote, List.mem_cons_of_mem _ hm, rest'⟩
              · rintro ⟨x, cl, c, vote, hm, hy, hc, hvv, hst, hdue⟩
                rcases List.mem_cons.mp hm with hm | hm
                · exfalso
                  injection hm with h1 h2
                  subst h1
                  subst h2
                  rw [hv] at hvv
                  cases hvv
                · exact ⟨x, cl, c, vote, hm, hy, hc, hvv, hst, hdue⟩
            | some vote =>
              rw [hv] at h
              cases h
              rw [List.mem_cons]
              constructor
              · rintro (heq | hmem)
                · injection heq with h1 h2
                  refine ⟨canceler, cancel, c0, vote, List.mem_cons_self _ _, h1.symm, hl, hv,
                    h2.symm, Or.inl ⟨hp, ?_⟩⟩
                  exact eq_of_beq hcond
                · rcases ihr.mp hmem with ⟨x, cl, c, vote', hm, rest'⟩
                  exact ⟨x, cl, c, vote', List.mem_cons_of_mem _ hm, rest'⟩
              · rintro ⟨x, cl, c, vote', hm, hy, hc, hvv, hst, hdue⟩
                rcases List.mem_cons.mp hm with hm | hm
                · injection hm with h1 h2
                  subst h1
                  subst h2
                  rw [hl] at hc
                  injection hc with hc
                  subst hc
                  rw [hv] at hvv
                  injection hvv with hvv
                  subst hvv
                  left
                  rw [hy, hst]
                · right
                  exact ihr.mpr ⟨x, cl, c, vote', hm, hy, hc, hvv, hst, hdue⟩
    | false =>
      rw [hp] at h
      simp only [Bool.false_eq_true, if_false] at h
      cases hl : alookup snap.Cancelers canceler with
      | none => rw [hl] at h; dsimp only at h; cases h
      | some c0 =>
        cases hrec : finalizeUnfreezeGo snap number rest with
        | error e => rw [hl] at h; dsimp only at h; rw [hrec] at h; dsimp only at h; cases h
        | ok credits' =>
          rw [hl] at h
          dsimp only at h
          rw [hrec] at h
          dsimp only at h
          have ihr := ih credits' hrec y st
          cases hcond : (u64 (number + 2) == u64 (c0 + snap.config.Freeze / snap.config.Period)) with
          | false =>
            rw [hcond] at h
            simp only [Bool.false_eq_true, if_false] at h
            cases h
            rw [ihr]
            constructor
            · rintro ⟨x, cl, c, vote, hm, rest'⟩
              exact ⟨x, cl, c, vote, List.mem_cons_of_mem _ hm, rest'⟩
            · rintro ⟨x, cl, c, vote, hm, hy, hc, hv, hst, hdue⟩
              rcases List.mem_cons.mp hm with hm | hm
              · exfalso
                injection hm with h1 h2
                subst h1
                subst h2
                rw [hl] at hc
                injection hc with hc
                subst hc
                rcases hdue with ⟨hpas, _⟩ | ⟨_, hn⟩
                · rw [hp] at hpas
                  cases hpas
                · rw [hn] at hcond
                  simp at hcond
              · exact ⟨x, cl, c, vote, hm, hy, hc, hv, hst, hdue⟩
          | true =>
            rw [hcond] at h
            simp only [if_true] at h
            cases hv : alookup snap.Votes canceler with
            | none =>
              rw [hv] at h
              cases h
              rw [ihr]
              constructor
              · rintro ⟨x, cl, c, vote, hm, rest'⟩
                exact ⟨x, cl, c, vote, List.mem_cons_of_mem _ hm, rest'⟩
              · rintro ⟨x, cl, c, vote, hm, hy, hc, hvv, hst, hdue⟩
                rcases List.mem_cons.mp hm with hm | hm
                · exfalso
                  injection hm with h1 h2
                  subst h1
                  subst h2
                  rw [hv] at hvv
                  cases hvv
                · exact ⟨x, cl, c, vote, hm, hy, hc, hvv, hst, hdue⟩
            | some vote =>
              rw [hv] at h
              cases h
              rw [List.mem_cons]
              constructor
              · rintro (heq | hmem)
                · injection heq with h1 h2
                  refine ⟨canceler, cancel, c0, vote, List.mem_cons_self _ _, h1.symm, hl, hv,
                    h2.symm, Or.inr ⟨hp, ?_⟩⟩
                  exact eq_of_beq hcond
                · rcases ihr.mp hmem with ⟨x, cl, c, vote', hm, rest'⟩
                  exact ⟨x, cl, c, vote', List.mem_cons_of_mem _ hm, rest'⟩
              · rintro ⟨x, cl, c, vote', hm, hy, hc, hvv, hst, hdue⟩
                rcases List.mem_cons.mp hm with hm | hm
                · injection hm with h1 h2
                  subst h1
                  subst h2
                  rw [hl] at hc
                  injection hc with hc
                  subst hc
                  rw [hv] at hvv
                  injection hvv with hvv
                  subst hvv
                  left
                  rw [hy, hst]
                · right
                  exact ihr.mpr ⟨x, cl, c, vote', hm, hy, hc, hvv, hst, hdue⟩

/-- C5 (counterexample): active cancel recorded at block 10 with
freeze/period = 4.  The claim predicts the credit exactly at height
10 + 4 = 14, yet finalize credits nothing there and instead credits the
canceler at height 12 = 10 + 4 - 2. -/
theorem unfreeze_credit_height_mismatch_at_concrete :
    alookup cancelSnap.Cancelers [13] = some 10 ∧
    cancelSnap.config.Freeze / cancelSnap.config.Period = 4 ∧
    finalizeUnfreeze cancelSnap (10 + 4) = .ok [] ∧
    finalizeUnfreeze cancelSnap 12 = .ok [([13], 7)] := by
  refine ⟨by decide, by decide, by decide, by decide⟩

/-- C5 (corrected): during finalize a canceler with a vote still in
snap.Votes is credited the vote's stake exactly when the block number meets
the code's window: passive exactly at 1 + cancelers[x]; active exactly when
number + 2 = cancelers[x] + freeze/period (two blocks before the height the
claim states). -/
theorem unfreeze_credit_characterization (snap : Snapshot) (number : Nat)
    (credits : List (Addr × Int)) (h : finalizeUnfreeze snap number = .ok credits)
    (y : Addr) (st : Int) :
    (y, st) ∈ credits ↔ ∃ x cancel c vote,
      (x, cancel) ∈ snap.Cancels ∧ cancel.Canceler = y ∧
      alookup snap.Cancelers x = some c ∧ alookup snap.Votes x = some vote ∧
      vote.Stake = st ∧ unfreezeDue snap number cancel c :=
  finalizeUnfreezeGo_mem snap number snap.Cancels credits h y st

/-- C5 witness: concrete credit of stake 7 to [13] at height 12. -/
theorem unfreeze_credit_characterization_witness :
    (([13], (7 : Int)) ∈ ([(([13] : Addr), (7 : Int))] : List (Addr × Int))) ↔
      ∃ x cancel c vote,
        (x, cancel) ∈ cancelSnap.Cancels ∧ cancel.Canceler = [13] ∧
        alookup cancelSnap.Cancelers x = some c ∧ alookup cancelSnap.Votes x = some vote ∧
        vote.Stake = 7 ∧ unfreezeDue cancelSnap 12 cancel c :=
  unfreeze_credit_characterization cancelSnap 12 [([13], 7)] (by decide) [13] 7

theorem processEventVoteBalance_spec (cbv : List Vote) (bal : Int) (voter toA : Addr)
    (value : Int) (h : Hsh) :
    (¬ bal > value → processEventVoteBalance cbv bal voter toA value h = (cbv, bal)) ∧
    ((processEventVoteBalance cbv bal voter toA value h).1 ≠ cbv →
      bal > value ∧
      processEventVoteBalance cbv bal voter toA value h =
        (cbv ++ [{ Voter := voter, Candidate := toA, Stake := value, Hash := h }], bal - value)) ∧
    ((processEventVoteBalance cbv bal voter toA value h).2 ≠ bal →
      (processEventVoteBalance cbv bal voter toA value h).1 ≠ cbv) := by
  unfold processEventVoteBalance
  by_cases hb : bal > value
  · by_cases hrep : cbv.any (fun v => v.Voter == voter)
    · simp [hb, hrep]
    · have hre : ¬ (cbv.any (fun v => v.Voter == voter) = true) := hrep
      rw [if_pos hb, if_neg hre]
      refine ⟨fun hc => absurd hb hc, fun _ => ⟨hb, rfl⟩, fun _ => ?_⟩
      simp
  · simp [hb]

/-- C8 (confirmed): in the vote path of the custom-transaction interpreter a
vote is emitted and the stake debited only when the voter's balance is
strictly greater than the stake (balance = stake is rejected), and a vote
rejected at the balance check leaves the pending vote list and the balance
unchanged. -/
theorem processEventVote_strict_balance
    (snapVotes : List (Addr × Vote)) (snapCandidates : List (Addr × List Vote))
    (minVoteValue selfVoteValue : Int) (cbv : List Vote) (bal : Int)
    (voter toA : Addr) (pv : Option Int) (h : Hsh) :
    (∀ value, pv = some value → ¬ bal > value →
      processEventVote snapVotes snapCandidates minVoteValue selfVoteValue cbv bal
        voter toA pv h = (cbv, bal)) ∧
    ((processEventVote snapVotes snapCandidates minVoteValue selfVoteValue cbv bal
        voter toA pv h).1 ≠ cbv →
      ∃ value, pv = some value ∧ bal > value ∧
        processEventVote snapVotes snapCandidates minVoteValue selfVoteValue cbv bal
          voter toA pv h =
          (cbv ++ [{ Voter := voter, Candidate := toA, Stake := value, Hash := h }],
            bal - value)) ∧
    ((processEventVote snapVotes snapCandidates minVoteValue selfVoteValue cbv bal
        voter toA pv h).2 ≠ bal →
      (processEventVote snapVotes snapCandidates minVoteValue selfVoteValue cbv bal
        voter toA pv h).1 ≠ cbv) := by
  cases pv with
  | none =>
    refine ⟨?_, ?_, ?_⟩
    · intro value hv
      cases hv
    · intro hc
      exact absurd rfl hc
    · intro hc
      exact absurd rfl hc
  | some value =>
    simp only [processEventVote]
    by_cases h1 : (alookup snapVotes voter).isSome
    · rw [if_pos h1]
      exact ⟨fun _ _ _ => rfl, fun hc => absurd rfl hc, fun hc => absurd rfl hc⟩
    · rw [if_neg h1]
      by_cases h2 : voter ≠ toA
      · rw [if_pos h2]
        by_cases h3 : value < minVoteValue
        · rw [if_pos h3]
          exact ⟨fun _ _ _ => rfl, fun hc => absurd rfl hc, fun hc => absurd rfl hc⟩
        · rw [if_neg h3]
          by_cases h4 : (alookup snapCandidates toA).isNone
          · rw [if_pos h4]
            exact ⟨fun _ _ _ => rfl, fun hc => absurd rfl hc, fun hc => absurd rfl hc⟩
          · rw [if_neg h4]
            have spec := processEventVoteBalance_spec cbv bal voter toA value h
            refine ⟨?_, ?_, spec.2.2⟩
            · intro value' hv hnb
              injection hv with hv
              subst hv
              exact spec.1 hnb
            · intro hc
              rcases spec.2.1 hc with ⟨hb, heq⟩
              exact ⟨value, rfl, hb, heq⟩
      · rw [if_neg h2]
        by_cases h5 : value < selfVoteValue
        · rw [if_pos h5]
          exact ⟨fun _ _ _ => rfl, fun hc => absurd rfl hc, fun hc => absurd rfl hc⟩
        · rw [if_neg h5]
          have spec := processEventVoteBalance_spec cbv bal voter toA value h
          refine ⟨?_, ?_, spec.2.2⟩
          · intro value' hv hnb
            injection hv with hv
            subst hv
            exact spec.1 hnb
          · intro hc
            rcases spec.2.1 hc with ⟨hb, heq⟩
            exact ⟨value, rfl, hb, heq⟩

/-- C8 witness: a voter whose balance exactly equals the stake (10 = 10) is
rejected and both the pending vote list and the balance stay unchanged. -/
theorem processEventVote_strict_balance_witness :
    processEventVote [] [([5], [])] 1 1 [] 10 [4] [5] (some 10) 0 = ([], 10) :=
  (processEventVote_strict_balance [] [([5], [])] 1 1 [] 10 [4] [5] (some 10) 0).1 10 rfl
    (by norm_num)

/-- C2 (code_bug): Snapshot.copy shares each candidate vote slice with the
original, and removeExtraVotesAndCancel edits such a slice in place with
append(a[:i], a[i+1:]...).  Evaluated at a shared two-vote backing array with
the canceler's vote at index 0, the original snapshot's view of the slice
becomes [v2, v2] instead of [v1, v2]: the receiver of a failing apply is not
left unchanged. -/
theorem sharedCandidatesSlice_mutated_on_gc :
    goSharedSliceView
        [({ Voter := [13], Candidate := [14], Stake := 7, Hash := 0 } : Vote),
         { Voter := [15], Candidate := [14], Stake := 8, Hash := 0 }] 2 2 0 =
      [{ Voter := [15], Candidate := [14], Stake := 8, Hash := 0 },
       { Voter := [15], Candidate := [14], Stake := 8, Hash := 0 }] ∧
    goSharedSliceView
        [({ Voter := [13], Candidate := [14], Stake := 7, Hash := 0 } : Vote),
         { Voter := [15], Candidate := [14], Stake := 8, Hash := 0 }] 2 2 0 ≠
      [{ Voter := [13], Candidate := [14], Stake := 7, Hash := 0 },
       { Voter := [15], Candidate := [14], Stake := 8, Hash := 0 }] := by
  refine ⟨by decide, by decide⟩

/-- C1 (counterexample): strictly consecutive headers 1, 2 on a height-0
snapshot, header 1 carrying a confirmation for the future block 2.  Applying
both headers at once keeps that confirmation, while header-at-a-time
application expires it in between (the uint64 subtraction Number - 2
underflows at Number = 1), so the two results differ. -/
theorem apply_batch_ne_iterated_at_concrete :
    chainOk [exH1, exH2] = true ∧
    u64 exH1.Number = u64 (emptySnap.Number + 1) ∧
    emptySnap.apply [exH1, exH2] ≠ emptySnap.applyIter [exH1, exH2] := by
  refine ⟨by decide, by decide, by decide⟩

theorem except_bind_ok {ε α β : Type} (e : Except ε α) (f : α → Except ε β) (b : β)
    (h : e >>= f = .ok b) : ∃ a, e = .ok a ∧ f a = .ok b := by
  cases e with
  | error err => simp [Bind.bind, Except.bind] at h
  | ok a => exact ⟨a, rfl, by simpa [Bind.bind, Except.bind] using h⟩

theorem u64_add_left (a b : Nat) : u64 (u64 a + b) = u64 (a + b) := by
  simp [u64, Nat.mod_add_mod]

theorem sameCore_refl (s : Snapshot) : sameCore s s :=
  ⟨rfl, rfl, rfl, rfl, rfl, rfl, rfl, rfl, rfl, rfl⟩

theorem sameCore_trans {a b c : Snapshot} (h1 : sameCore a b) (h2 : sameCore b c) :
    sameCore a c := by
  obtain ⟨e1, e2, e3, e4, e5, e6, e7, e8, e9, e10⟩ := h1
  obtain ⟨f1, f2, f3, f4, f5, f6, f7, f8, f9, f10⟩ := h2
  exact ⟨f1.trans e1, f2.trans e2, f3.trans e3, f4.trans e4, f5.trans e5, f6.trans e6,
    f7.trans e7, f8.trans e8, f9.trans e9, f10.trans e10⟩

theorem updateSnapshotByConfirmations_core (s : Snapshot) (cs : List Confirmation) :
    sameCore s (s.updateSnapshotByConfirmations cs) :=
  ⟨rfl, rfl, rfl, rfl, rfl, rfl, rfl, rfl, rfl, rfl⟩

theorem updateSnapshotForPunish_core (s : Snapshot) (miss : List Addr) (hn : Nat) (cb : Addr) :
    sameCore s (s.updateSnapshotForPunish miss hn cb) :=
  ⟨rfl, rfl, rfl, rfl, rfl, rfl, rfl, rfl, rfl, rfl⟩

theorem updateSnapshotForExpired_core (s : Snapshot) :
    sameCore s s.updateSnapshotForExpired :=
  ⟨rfl, rfl, rfl, rfl, rfl, rfl, rfl, rfl, rfl, rfl⟩

theorem updateSnapshotByVotesStep_core (hn : Nat) (s : Snapshot) (v : Vote) (t : Snapshot)
    (h : updateSnapshotByVotesStep hn s v = .ok t) : sameCore s t := by
  unfold updateSnapshotByVotesStep at h
  by_cases h1 : (alookup s.Votes v.Voter).isSome
  · rw [if_pos h1] at h
    cases h
    exact sameCore_refl _
  · rw [if_neg h1] at h
    by_cases h2 : ¬ s.isCandidate v.Candidate ∧ v.Candidate ≠ v.Voter
    · rw [if_pos h2] at h
      cases h
      exact sameCore_refl _
    · rw [if_neg h2] at h
      dsimp only at h
      split at h
      · cases h
      · cases h
        exact ⟨rfl, rfl, rfl, rfl, rfl, rfl, rfl, rfl, rfl, rfl⟩

theorem updateSnapshotByVotes_core :
    ∀ (votes : List Vote) (hn : Nat) (s t : Snapshot),
      s.updateSnapshotByVotes votes hn = .ok t → sameCore s t := by
  intro votes
  induction votes with
  | nil =>
    intro hn s t h
    simp only [Snapshot.updateSnapshotByVotes, List.foldlM_nil] at h
    cases h
    exact sameCore_refl _
  | cons v rest ih =>
    intro hn s t h
    simp only [Snapshot.updateSnapshotByVotes, List.foldlM_cons] at h
    rcases except_bind_ok _ _ _ h with ⟨s', h1, h2⟩
    exact sameCore_trans (updateSnapshotByVotesStep_core hn s v s' h1) (ih hn s' t h2)

theorem updateSnapshotByCancelsAux_core :
    ∀ (fuel hn : Nat) (s : Snapshot) (cancels : List Cancel) (i : Nat) (t : Snapshot),
      updateSnapshotByCancelsAux hn fuel s cancels i = .ok t → sameCore s t := by
  intro fuel
  induction fuel with
  | zero =>
    intro hn s cancels i t h
    unfold updateSnapshotByCancelsAux at h
    split at h
    · cases h
    · cases h
      exact sameCore_refl _
  | succ fuel ih =>
    intro hn s cancels i t h
    unfold updateSnapshotByCancelsAux at h
    split at h
    · cases h
      exact sameCore_refl _
    · split at h
      · exact ih hn s cancels (i + 1) t h
      · dsimp only at h
        split at h
        · split at h
          · refine sameCore_trans ?_ (ih hn _ _ (i + 1) t h)
            exact ⟨rfl, rfl, rfl, rfl, rfl, rfl, rfl, rfl, rfl, rfl⟩
          · exact ih hn _ _ (i + 1) t h
        · exact ih hn _ _ (i + 1) t h

theorem updateSnapshotByCancels_core (s : Snapshot) (cancels : List Cancel) (hn : Nat)
    (t : Snapshot) (h : s.updateSnapshotByCancels cancels hn = .ok t) : sameCore s t :=
  updateSnapshotByCancelsAux_core _ hn s cancels 0 t h

theorem gcStep_core (s : Snapshot) (e : Addr × Cancel) (t : Snapshot)
    (h : gcStep s e = .ok t) : sameCore s t := by
  unfold gcStep at h
  dsimp only at h
  split at h
  · cases h
  · split at h
    · split at h
      · cases h
      · rename_i s' heq
        cases h
        have hcore : sameCore s s' := by
          split at heq
          · cases heq
            exact ⟨rfl, rfl, rfl, rfl, rfl, rfl, rfl, rfl, rfl, rfl⟩
          · split at heq
            · cases heq
            · split at heq
              · cases heq
                exact sameCore_refl _
              · cases heq
                exact ⟨rfl, rfl, rfl, rfl, rfl, rfl, rfl, rfl, rfl, rfl⟩
        obtain ⟨e1, e2, e3, e4, e5, e6, e7, e8, e9, e10⟩ := hcore
        exact ⟨e1, e2, e3, e4, e5, e6, e7, e8, e9, e10⟩
    · cases h
      exact sameCore_refl _

theorem foldlM_core {β : Type} (f : Snapshot → β → Except AErr Snapshot)
    (hf : ∀ s e t, f s e = .ok t → sameCore s t) :
    ∀ (l : List β) (s t : Snapshot), l.foldlM f s = .ok t → sameCore s t := by
  intro l
  induction l with
  | nil =>
    intro s t h
    simp only [List.foldlM_nil] at h
    cases h
    exact sameCore_refl _
  | cons e rest ih =>
    intro s t h
    simp only [List.foldlM_cons] at h
    rcases except_bind_ok _ _ _ h with ⟨s', h1, h2⟩
    exact sameCore_trans (hf s e s' h1) (ih s' t h2)

theorem removeExtraVotesAndCancel_core (s : Snapshot) (t : Snapshot)
    (h : s.removeExtraVotesAndCancel = .ok t) : sameCore s t :=
  foldlM_core gcStep gcStep_core s.Cancels s t h

theorem processHeader_ok_core (s : Snapshot) (hd : Header) (t : Snapshot)
    (h : processHeader s hd = .ok t) :
    ∃ ex, hd.Extra = some ex ∧ t.config = s.config ∧ t.LCRS = s.LCRS ∧ t.Period = s.Period ∧
      t.Number = s.Number ∧ t.Hash = s.Hash ∧
      t.HeaderTime = u64 hd.Time ∧ t.LoopStartTime = ex.LoopStartTime ∧
      t.Signers = ex.SignerQueue ∧ t.ConfirmedNumber = ex.ConfirmedBlockNumber ∧
      t.HistoryHash = histStep s.config.MaxSignerCount s.HistoryHash hd.HHash := by
  unfold processHeader at h
  cases hr : hd.recovered with
  | none => rw [hr] at h; cases h
  | some cb =>
    rw [hr] at h
    dsimp only at h
    by_cases hcb : cb ≠ hd.Coinbase
    · rw [if_pos hcb] at h
      cases h
    · rw [if_neg hcb] at h
      cases hex : hd.Extra with
      | none => rw [hex] at h; cases h
      | some ex =>
        rw [hex] at h
        dsimp only at h
        refine ⟨ex, rfl, ?_⟩
        split at h
        · cases h
        · rename_i s3 hv
          split at h
          · cases h
          · rename_i s4 hc
            have c2 : sameCore _ s3 := updateSnapshotByVotes_core _ _ _ _ hv
            have c3 : sameCore s3 s4 := updateSnapshotByCancels_core _ _ _ _ hc
            have c4 : sameCore s4 t :=
              sameCore_trans (updateSnapshotForPunish_core s4 ex.SignerMissing hd.Number
                hd.Coinbase) (removeExtraVotesAndCancel_core _ _ h)
            have call := sameCore_trans (sameCore_trans c2 c3) c4
            obtain ⟨e1, e2, e3, e4, e5, e6, e7, e8, e9, e10⟩ := call
            exact ⟨e1.trans rfl, e2, e3, e4, e5, e6, e7, e8, e9, e10⟩

theorem foldlM_processHeader_core :
    ∀ (hs : List Header) (s t : Snapshot), hs.foldlM processHeader s = .ok t →
      t.config = s.config ∧ t.Number = s.Number ∧ t.Hash = s.Hash ∧
      t.HistoryHash = histFold s.config.MaxSignerCount s.HistoryHash hs ∧
      (hs = [] → t = s) ∧
      (∀ hlast, hs.getLast? = some hlast → ∃ ex, hlast.Extra = some ex ∧
        t.HeaderTime = u64 hlast.Time ∧ t.LoopStartTime = ex.LoopStartTime ∧
        t.Signers = ex.SignerQueue ∧ t.ConfirmedNumber = ex.ConfirmedBlockNumber) := by
  intro hs
  induction hs with
  | nil =>
    intro s t h
    simp only [List.foldlM_nil] at h
    cases h
    refine ⟨rfl, rfl, rfl, rfl, fun _ => rfl, ?_⟩
    intro hlast hl
    simp at hl
  | cons hd rest ih =>
    intro s t h
    simp only [List.foldlM_cons] at h
    rcases except_bind_ok _ _ _ h with ⟨s', h1, h2⟩
    rcases processHeader_ok_core s hd s' h1 with
      ⟨ex, hex, hcfg, _, _, hnum, hhash, htime, hloop, hsgn, hconf, hhist⟩
    rcases ih s' t h2 with ⟨icfg, inum, ihash, ihist, inil, ilast⟩
    have hcfg' : t.config = s.config := icfg.trans hcfg
    refine ⟨hcfg', inum.trans hnum, ihash.trans hhash, ?_, ?_, ?_⟩
    · rw [ihist, hhist, hcfg]
      simp [histFold]
    · intro habs
      cases habs
    · intro hlast hl
      cases rest with
      | nil =>
        simp only [List.getLast?_singleton, Option.some.injEq] at hl
        subst hl
        have ht : t = s' := inil rfl
        subst ht
        exact ⟨ex, hex, htime, hloop, hsgn, hconf⟩
      | cons r rs =>
        rw [List.getLast?_cons_cons] at hl
        exact ilast hlast hl

theorem apply_ok_core (s : Snapshot) (hs : List Header) (t : Snapshot)
    (hok : s.apply hs = .ok t) :
    (hs = [] ∧ t = s) ∨
    (∃ b hlast, hs.foldlM processHeader s = .ok b ∧ hs.getLast? = some hlast ∧
      t.config = b.config ∧ t.Number = u64 (b.Number + hs.length) ∧ t.Hash = hlast.HHash ∧
      t.HistoryHash = b.HistoryHash ∧ t.HeaderTime = b.HeaderTime ∧
      t.LoopStartTime = b.LoopStartTime ∧ t.Signers = b.Signers ∧
      t.ConfirmedNumber = b.ConfirmedNumber) := by
  cases hs with
  | nil =>
    unfold Snapshot.apply at hok
    cases hok
    exact Or.inl ⟨rfl, rfl⟩
  | cons h0 rest =>
    right
    unfold Snapshot.apply at hok
    dsimp only at hok
    split at hok
    · cases hok
    · split at hok
      · cases hok
      · split at hok
        · cases hok
        · rename_i b hb
          split at hok
          · cases hok
          · cases hok
            exact ⟨b, (h0 :: rest).getLast (List.cons_ne_nil h0 rest), hb,
              (List.getLast?_eq_getLast _ (List.cons_ne_nil h0 rest)),
              rfl, rfl, rfl, rfl, rfl, rfl, rfl, rfl⟩

theorem applyIter_ok_core :
    ∀ (hs : List Header) (s u : Snapshot), s.applyIter hs = .ok u →
      u.config = s.config ∧
      (hs = [] → u = s) ∧
      (hs ≠ [] → u.Number = u64 (s.Number + hs.length)) ∧
      u.HistoryHash = histFold s.config.MaxSignerCount s.HistoryHash hs ∧
      (∀ hlast, hs.getLast? = some hlast → ∃ ex, hlast.Extra = some ex ∧
        u.Hash = hlast.HHash ∧ u.HeaderTime = u64 hlast.Time ∧
        u.LoopStartTime = ex.LoopStartTime ∧ u.Signers = ex.SignerQueue ∧
        u.ConfirmedNumber = ex.ConfirmedBlockNumber) := by
  intro hs
  induction hs with
  | nil =>
    intro s u h
    simp only [Snapshot.applyIter, List.foldlM_nil] at h
    cases h
    refine ⟨rfl, fun _ => rfl, fun habs => absurd rfl habs, rfl, ?_⟩
    intro hlast hl
    simp at hl
  | cons hd rest ih =>
    intro s u h
    simp only [Snapshot.applyIter, List.foldlM_cons] at h
    rcases except_bind_ok _ _ _ h with ⟨s1, h1, h2⟩
    rcases apply_ok_core s [hd] s1 h1 with ⟨habs, _⟩ | ⟨b, hlast, hb, hl, c1, c2, c3, c4, c5, c6, c7, c8⟩
    · cases habs
    · have hlast_eq : hlast = hd := by
        simp only [List.getLast?_singleton, Option.some.injEq] at hl
        exact hl.symm
      subst hlast_eq
      have hpb : processHeader s hlast = .ok b := by
        simp only [List.foldlM_cons, List.foldlM_nil] at hb
        rcases except_bind_ok _ _ _ hb with ⟨b', hb1, hb2⟩
        simp only [pure, Except.pure, Except.ok.injEq] at hb2
        rw [← hb2]
        exact hb1
      rcases processHeader_ok_core s hlast b hpb with
        ⟨ex, hex, pcfg, _, _, pnum, _, ptime, ploop, psgn, pconf, phist⟩
      have h2' : s1.applyIter rest = .ok u := h2
      rcases ih s1 u h2' with ⟨icfg, inil, inum, ihist, ilast⟩
      have hs1cfg : s1.config = s.config := c1.trans pcfg
      refine ⟨icfg.trans hs1cfg, fun habs => absurd habs (List.cons_ne_nil _ _), ?_, ?_, ?_⟩
      · intro _
        cases rest with
        | nil =>
          have hu : u = s1 := inil rfl
          subst hu
          rw [c2, pnum]
        | cons r rs =>
          have hnum := inum (List.cons_ne_nil r rs)
          rw [hnum, c2, pnum, u64_add_left]
          congr 1
          simp only [List.length_cons, List.length_nil]
          omega
      · rw [ihist, hs1cfg]
        have hs1hist : s1.HistoryHash = histStep s.config.MaxSignerCount s.HistoryHash hlast.HHash := by
          rw [c4, phist]
        rw [hs1hist]
        simp [histFold]
      · intro hl' hll
        cases rest with
        | nil =>
          have hu : u = s1 := inil rfl
          subst hu
          simp only [List.getLast?_singleton, Option.some.injEq] at hll
          subst hll
          refine ⟨ex, hex, by rw [c3], ?_, ?_, ?_, ?_⟩
          · rw [c5, ptime]
          · rw [c6, ploop]
          · rw [c7, psgn]
          · rw [c8, pconf]
        | cons r rs =>
          rw [List.getLast?_cons_cons] at hll
          exact ilast hl' hll

/-- C1 (corrected): when both evaluations succeed, applying a header list at
once and applying it one header at a time agree on number, hash, header time,
loop start time, signer queue, confirmed number and history hash.  The map
fields can differ (see the counterexample): per-header garbage collection
reads the pre-batch number and the expiry/verification pass of apply runs
once per call, not once per header. -/
theorem apply_batch_iterated_agree_on_header_fields (s : Snapshot) (hs : List Header)
    (t u : Snapshot) (hb : s.apply hs = .ok t) (hi : s.applyIter hs = .ok u) :
    t.Number = u.Number ∧ t.Hash = u.Hash ∧ t.HeaderTime = u.HeaderTime ∧
    t.LoopStartTime = u.LoopStartTime ∧ t.Signers = u.Signers ∧
    t.ConfirmedNumber = u.ConfirmedNumber ∧ t.HistoryHash = u.HistoryHash := by
  rcases apply_ok_core s hs t hb with ⟨hnil, ht⟩ |
    ⟨b, hlast, hfold, hl, c1, c2, c3, c4, c5, c6, c7, c8⟩
  · subst hnil
    rcases applyIter_ok_core [] s u hi with ⟨_, inil, _⟩
    have hu : u = s := inil rfl
    subst ht
    subst hu
    exact ⟨rfl, rfl, rfl, rfl, rfl, rfl, rfl⟩
  · rcases applyIter_ok_core hs s u hi with ⟨icfg, _, inum, ihist, ilast⟩
    rcases foldlM_processHeader_core hs s b hfold with ⟨fcfg, fnum, _, fhist, _, flast⟩
    have hne : hs ≠ [] := by
      intro habs
      subst habs
      simp at hl
    rcases flast hlast hl with ⟨ex, hex, ftime, floop, fsgn, fconf⟩
    rcases ilast hlast hl with ⟨ex2, hex2, iuhash, iutime, iuloop, iusgn, iuconf⟩
    have hexeq : ex2 = ex := by
      rw [hex] at hex2
      injection hex2 with e
      exact e.symm
    refine ⟨?_, ?_, ?_, ?_, ?_, ?_, ?_⟩
    · rw [c2, fnum, inum hne]
    · rw [c3, iuhash]
    · rw [c5, ftime, iutime]
    · rw [c6, floop, iuloop, hexeq]
    · rw [c7, fsgn, iusgn, hexeq]
    · rw [c8, fconf, iuconf, hexeq]
    · rw [c4, fhist, ihist]

/-- C1 witness: both the batch and the iterated application of [exH1, exH2]
succeed, and the theorem yields agreement of the seven header-derived fields
at that concrete input. -/
theorem apply_batch_iterated_agree_witness :
    ∃ t u, emptySnap.apply [exH1, exH2] = .ok t ∧ emptySnap.applyIter [exH1, exH2] = .ok u ∧
      (t.Number = u.Number ∧ t.Hash = u.Hash ∧ t.HeaderTime = u.HeaderTime ∧
       t.LoopStartTime = u.LoopStartTime ∧ t.Signers = u.Signers ∧
       t.ConfirmedNumber = u.ConfirmedNumber ∧ t.HistoryHash = u.HistoryHash) := by
  have hb : emptySnap.apply [exH1, exH2] =
      .ok ((emptySnap.apply [exH1, exH2]).toOption.get (by decide)) := by decide
  have hi : emptySnap.applyIter [exH1, exH2] =
      .ok ((emptySnap.applyIter [exH1, exH2]).toOption.get (by decide)) := by decide
  exact ⟨_, _, hb, hi,
    apply_batch_iterated_agree_on_header_fields emptySnap [exH1, exH2] _ _ hb hi⟩

theorem punished_bound_ainsert (m : List (Addr × Nat)) (k : Addr) (v B : Nat)
    (hm : ∀ p ∈ m, p.2 ≤ B) (hv : v ≤ B) : ∀ p ∈ ainsert m k v, p.2 ≤ B := by
  intro p hp
  rcases mem_ainsert m k v p hp with h | h
  · exact hm p h
  · rw [h]
    exact hv

theorem punishMissingStep_bound (punished : List (Addr × Nat)) (m : Addr)
    (h : ∀ p ∈ punished, p.2 ≤ 10 * defaultFullCredit + missingPublishCredit) :
    ∀ p ∈ punishMissingStep punished m, p.2 ≤ 10 * defaultFullCredit + missingPublishCredit := by
  unfold punishMissingStep
  cases hl : alookup punished m with
  | none =>
    exact punished_bound_ainsert _ _ _ _ h (by norm_num [defaultFullCredit, missingPublishCredit])
  | some v =>
    dsimp only
    by_cases hv : v ≤ 10 * defaultFullCredit
    · rw [if_pos hv]
      exact punished_bound_ainsert _ _ _ _ h (by omega)
    · rw [if_neg hv]
      exact h

theorem punishMissing_fold_bound :
    ∀ (miss : List Addr) (punished : List (Addr × Nat)),
      (∀ p ∈ punished, p.2 ≤ 10 * defaultFullCredit + missingPublishCredit) →
      ∀ p ∈ miss.foldl punishMissingStep punished,
        p.2 ≤ 10 * defaultFullCredit + missingPublishCredit := by
  intro miss
  induction miss with
  | nil => intro punished h; exact h
  | cons m rest ih =>
    intro punished h
    simp only [List.foldl_cons]
    exact ih _ (punishMissingStep_bound punished m h)

theorem punished_auto_bound (punished : List (Addr × Nat)) (B : Nat)
    (h : ∀ p ∈ punished, p.2 ≤ B + 1) :
    ∀ p ∈ punished.foldr
        (fun p acc => if p.2 > autoRewardCredit then (p.1, p.2 - autoRewardCredit) :: acc else acc)
        [], p.2 ≤ B := by
  induction punished with
  | nil => intro p hp; simp at hp
  | cons q rest ih =>
    intro p hp
    simp only [List.foldr_cons] at hp
    by_cases hq : q.2 > autoRewardCredit
    · rw [if_pos hq] at hp
      rcases List.mem_cons.mp hp with h1 | h1
      · rw [h1]
        have := h q (List.mem_cons_self _ _)
        simp only [autoRewardCredit]
        omega
      · exact ih (fun r hr => h r (List.mem_cons_of_mem _ hr)) p h1
    · rw [if_neg hq] at hp
      exact ih (fun r hr => h r (List.mem_cons_of_mem _ hr)) p hp

/-- The punished map after one full punishment update stays below
10 * defaultFullCredit + missingPublishCredit - autoRewardCredit = 10099. -/
theorem updateSnapshotForPunish_bound (s : Snapshot) (miss : List Addr) (hn : Nat) (cb : Addr)
    (h : ∀ p ∈ s.Punished, p.2 ≤ 10099) :
    ∀ p ∈ (s.updateSnapshotForPunish miss hn cb).Punished, p.2 ≤ 10099 := by
  unfold Snapshot.updateSnapshotForPunish
  dsimp only
  have h0 : ∀ p ∈ s.Punished, p.2 ≤ 10 * defaultFullCredit + missingPublishCredit := by
    intro p hp
    have := h p hp
    simp only [defaultFullCredit, missingPublishCredit]
    omega
  have h1 := punishMissing_fold_bound miss s.Punished h0
  set pun1 := miss.foldl punishMissingStep s.Punished with hpun1
  have h2 : ∀ p ∈ (match alookup pun1 cb with
      | some v => if v > signRewardCredit then ainsert pun1 cb (v - signRewardCredit)
                  else aerase pun1 cb
      | none => pun1), p.2 ≤ 10 * defaultFullCredit + missingPublishCredit := by
    cases hl : alookup pun1 cb with
    | none => exact h1
    | some v =>
      dsimp only
      by_cases hv : v > signRewardCredit
      · rw [if_pos hv]
        refine punished_bound_ainsert _ _ _ _ h1 ?_
        have := h1 _ (alookup_mem _ _ _ hl)
        omega
      · rw [if_neg hv]
        intro p hp
        exact h1 p (mem_aerase _ _ p hp)
  refine fun p hp => punished_auto_bound _ 10099 ?_ p hp
  intro q hq
  have := h2 q hq
  simp only [defaultFullCredit, missingPublishCredit] at this
  omega

theorem updateSnapshotByVotesStep_punished (hn : Nat) (s : Snapshot) (v : Vote) (t : Snapshot)
    (h : updateSnapshotByVotesStep hn s v = .ok t) : t.Punished = s.Punished := by
  unfold updateSnapshotByVotesStep at h
  by_cases h1 : (alookup s.Votes v.Voter).isSome
  · rw [if_pos h1] at h
    cases h
    rfl
  · rw [if_neg h1] at h
    by_cases h2 : ¬ s.isCandidate v.Candidate ∧ v.Candidate ≠ v.Voter
    · rw [if_pos h2] at h
      cases h
      rfl
    · rw [if_neg h2] at h
      dsimp only at h
      split at h
      · cases h
      · cases h
        rfl

theorem updateSnapshotByVotes_punished :
    ∀ (votes : List Vote) (hn : Nat) (s t : Snapshot),
      s.updateSnapshotByVotes votes hn = .ok t → t.Punished = s.Punished := by
  intro votes
  induction votes with
  | nil =>
    intro hn s t h
    simp only [Snapshot.updateSnapshotByVotes, List.foldlM_nil] at h
    cases h
    rfl
  | cons v rest ih =>
    intro hn s t h
    simp only [Snapshot.updateSnapshotByVotes, List.foldlM_cons] at h
    rcases except_bind_ok _ _ _ h with ⟨s', h1, h2⟩
    exact (ih hn s' t h2).trans (updateSnapshotByVotesStep_punished hn s v s' h1)

theorem updateSnapshotByCancelsAux_punished :
    ∀ (fuel hn : Nat) (s : Snapshot) (cancels : List Cancel) (i : Nat) (t : Snapshot),
      updateSnapshotByCancelsAux hn fuel s cancels i = .ok t → t.Punished = s.Punished := by
  intro fuel
  induction fuel with
  | zero =>
    intro hn s cancels i t h
    unfold updateSnapshotByCancelsAux at h
    split at h
    · cases h
    · cases h
      rfl
  | succ fuel ih =>
    intro hn s cancels i t h
    unfold updateSnapshotByCancelsAux at h
    split at h
    · cases h
      rfl
    · split at h
      · exact ih hn s cancels (i + 1) t h
      · dsimp only at h
        split at h
        · split at h
          · refine Eq.trans (ih hn _ _ (i + 1) t h) ?_
            rfl
          · exact ih hn _ _ (i + 1) t h
        · exact ih hn _ _ (i + 1) t h

theorem gcStep_punished (s : Snapshot) (e : Addr × Cancel) (t : Snapshot)
    (h : gcStep s e = .ok t) : ∀ p ∈ t.Punished, p ∈ s.Punished := by
  unfold gcStep at h
  dsimp only at h
  split at h
  · cases h
  · split at h
    · split at h
      · cases h
      · rename_i s' heq
        cases h
        have hsub : ∀ p ∈ s'.Punished, p ∈ s.Punished := by
          split at heq
          · cases heq
            exact fun p hp => mem_aerase _ _ p hp
          · split at heq
            · cases heq
            · split at heq
              · cases heq
                exact fun p hp => hp
              · cases heq
                exact fun p hp => hp
        exact hsub
    · cases h
      exact fun p hp => hp

theorem removeExtraVotesAndCancel_punished :
    ∀ (l : List (Addr × Cancel)) (s t : Snapshot), l.foldlM gcStep s = .ok t →
      ∀ p ∈ t.Punished, p ∈ s.Punished := by
  intro l
  induction l with
  | nil =>
    intro s t h
    simp only [List.foldlM_nil] at h
    cases h
    exact fun p hp => hp
  | cons e rest ih =>
    intro s t h
    simp only [List.foldlM_cons] at h
    rcases except_bind_ok _ _ _ h with ⟨s', h1, h2⟩
    exact fun p hp => gcStep_punished s e s' h1 p (ih s' t h2 p hp)

theorem processHeader_punished (s : Snapshot) (hd : Header) (t : Snapshot)
    (h : processHeader s hd = .ok t) (hinv : ∀ p ∈ s.Punished, p.2 ≤ 10099) :
    ∀ p ∈ t.Punished, p.2 ≤ 10099 := by
  unfold processHeader at h
  cases hr : hd.recovered with
  | none => rw [hr] at h; cases h
  | some cb =>
    rw [hr] at h
    dsimp only at h
    by_cases hcb : cb ≠ hd.Coinbase
    · rw [if_pos hcb] at h
      cases h
    · rw [if_neg hcb] at h
      cases hex : hd.Extra with
      | none => rw [hex] at h; cases h
      | some ex =>
        rw [hex] at h
        dsimp only at h
        split at h
        · cases h
        · rename_i s3 hv
          split at h
          · cases h
          · rename_i s4 hc
            have e3 := updateSnapshotByVotes_punished _ _ _ _ hv
            have e4 := updateSnapshotByCancelsAux_punished _ _ _ _ _ _ hc
            have hinv4 : ∀ p ∈ s4.Punished, p.2 ≤ 10099 := by
              rw [e4, e3]
              exact hinv
            have hinv5 := updateSnapshotForPunish_bound s4 ex.SignerMissing hd.Number
              hd.Coinbase hinv4
            exact fun p hp => hinv5 p (removeExtraVotesAndCancel_punished _ _ _ h p hp)

/-- C3 (corrected): the bound punished[m] ≤ 10099 (= 10 * defaultFullCredit +
missingPublishCredit - autoRewardCredit) is an invariant of apply; the
claimed bound 10000 is not, because the increment guard tests the value
before adding. -/
theorem punished_le_10099_preserved_by_apply (s : Snapshot) (hs : List Header) (t : Snapshot)
    (hinv : ∀ p ∈ s.Punished, p.2 ≤ 10099) (hok : s.apply hs = .ok t) :
    ∀ p ∈ t.Punished, p.2 ≤ 10099 := by
  have hfold : ∀ (l : List Header) (a b : Snapshot), l.foldlM processHeader a = .ok b →
      (∀ p ∈ a.Punished, p.2 ≤ 10099) → ∀ p ∈ b.Punished, p.2 ≤ 10099 := by
    intro l
    induction l with
    | nil =>
      intro a b h ha
      simp only [List.foldlM_nil] at h
      cases h
      exact ha
    | cons hd rest ih =>
      intro a b h ha
      simp only [List.foldlM_cons] at h
      rcases except_bind_ok _ _ _ h with ⟨a', h1, h2⟩
      exact ih a' b h2 (processHeader_punished a hd a' h1 ha)
  rcases apply_ok_core s hs t hok with ⟨_, ht⟩ | ⟨b, hlastHeader, hb, hlp, _⟩
  · subst ht
    exact hinv
  · have hbp := hfold hs s b hb hinv
    cases hs with
    | nil => simp at hlp
    | cons h0 rest =>
      unfold Snapshot.apply at hok
      dsimp only at hok
      split at hok
      · cases hok
      · split at hok
        · cases hok
        · split at hok
          · cases hok
          · rename_i b' hb'
            split at hok
            · cases hok
            · cases hok
              have hbb : b' = b := by
                rw [hb'] at hb
                injection hb
              subst hbb
              exact hbp

/-- C3 (counterexample): with punished[m] = 10000 = 10 * defaultFullCredit,
the guard `<= 10 * defaultFullCredit` still fires, adds 100, and after the
automatic recovery of 1 the map holds 10099 > 10000: the claimed cap is
exceeded by a single apply. -/
theorem punished_exceeds_cap_at_concrete :
    alookup punishSnap.Punished [3] = some 10000 ∧
    10000 ≤ 10 * defaultFullCredit ∧
    (punishSnap.apply [punishHeader]).map (fun t => (alookup t.Punished [3]).getD 0) =
      .ok 10099 ∧
    ¬ (10099 ≤ 10 * defaultFullCredit) := by
  refine ⟨by decide, by decide, by decide, by decide⟩

/-- C3 witness: the punished entry produced by the counterexample input obeys
the corrected bound 10099. -/
theorem punished_le_10099_witness :
    (([3], 10099) ∈ ((punishSnap.apply [punishHeader]).toOption.get (by decide)).Punished) ∧
    (([3], 10099) : Addr × Nat).2 ≤ 10099 := by
  have hb : punishSnap.apply [punishHeader] =
      .ok ((punishSnap.apply [punishHeader]).toOption.get (by decide)) := by decide
  refine ⟨by decide, ?_⟩
  exact punished_le_10099_preserved_by_apply punishSnap [punishHeader] _ (by decide) hb
    ([3], 10099) (by decide)

theorem genesisVoteStep_fold_hist :
    ∀ (votes : List Vote) (base : Snapshot),
      (votes.foldl genesisVoteStep base).HistoryHash = base.HistoryHash ∧
      (votes.foldl genesisVoteStep base).config = base.config := by
  intro votes
  induction votes with
  | nil => intro base; exact ⟨rfl, rfl⟩
  | cons v rest ih =>
    intro base
    simp only [List.foldl_cons]
    exact ih (genesisVoteStep base v)

theorem histStep_length (M : Nat) (hist : List Hsh) (h : Hsh) (hM : 1 ≤ M)
    (hlen : hist.length ≤ 2 * M) : (histStep M hist h).length ≤ 2 * M := by
  unfold histStep
  by_cases hc : hist.length ≥ M * 2
  · rw [if_pos hc]
    simp only [List.length_append, List.length_take, List.length_drop, List.length_singleton]
    omega
  · rw [if_neg hc]
    simp only [List.length_append, List.length_singleton]
    omega

theorem histFold_length (M : Nat) (hM : 1 ≤ M) :
    ∀ (hs : List Header) (hist : List Hsh), hist.length ≤ 2 * M →
      (histFold M hist hs).length ≤ 2 * M := by
  intro hs
  induction hs with
  | nil => intro hist h; exact h
  | cons hd rest ih =>
    intro hist h
    simp only [histFold, List.foldl_cons]
    exact ih (histStep M hist hd.HHash) (histStep_length M hist hd.HHash hM h)

/-- C9 (confirmed): the genesis snapshot starts with a single history hash;
every history update appends the header hash at the most-recent end and, when
the list is full, truncates exactly one entry from the front; and the bound
|historyHash| ≤ 2 * maxSignerCount is preserved by every successful apply. -/
theorem historyHash_bounded :
    (∀ (config : AlienConfig) (hash : Hsh) (votes : List Vote) (lcrs now : Nat),
      1 ≤ config.MaxSignerCount →
      (newSnapshot config hash votes lcrs now).HistoryHash.length ≤
        2 * config.MaxSignerCount) ∧
    (∀ (M : Nat) (hist : List Hsh) (h : Hsh), hist.length ≤ 2 * M →
      histStep M hist h = (if hist.length ≥ 2 * M then hist.drop 1 else hist) ++ [h]) ∧
    (∀ (s : Snapshot) (hs : List Header) (t : Snapshot),
      1 ≤ s.config.MaxSignerCount →
      s.HistoryHash.length ≤ 2 * s.config.MaxSignerCount →
      s.apply hs = .ok t →
      t.HistoryHash.length ≤ 2 * t.config.MaxSignerCount) := by
  refine ⟨?_, ?_, ?_⟩
  · intro config hash votes lcrs now hM
    unfold newSnapshot
    dsimp only
    rw [(genesisVoteStep_fold_hist votes _).1]
    simp only [List.length_singleton]
    omega
  · intro M hist h hlen
    unfold histStep
    by_cases hc : hist.length ≥ M * 2
    · rw [if_pos hc, if_pos (by omega : hist.length ≥ 2 * M)]
      congr 1
      apply List.take_of_length_le
      simp only [List.length_drop]
      omega
    · rw [if_neg hc, if_neg (by omega : ¬ hist.length ≥ 2 * M)]
  · intro s hs t hM hlen hok
    rcases apply_ok_core s hs t hok with ⟨_, ht⟩ | ⟨b, hlastHeader, hb, hlp, c1, _, _, c4, _⟩
    · subst ht
      exact hlen
    · rcases foldlM_processHeader_core hs s b hb with ⟨fcfg, _, _, fhist, _, _⟩
      rw [c4, fhist, c1, fcfg]
      exact histFold_length s.config.MaxSignerCount hM hs s.HistoryHash hlen

/-- C9 witness: concrete instances of all three conjuncts. -/
theorem historyHash_bounded_witness :
    ((newSnapshot exCfg 100 [] 1 7).HistoryHash.length ≤ 2 * exCfg.MaxSignerCount) ∧
    (histStep 21 [100] 101 = (if ([100] : List Hsh).length ≥ 2 * 21 then [100].drop 1
      else [100]) ++ [101]) ∧
    (((emptySnap.apply [exH1]).toOption.get (by decide)).HistoryHash.length ≤
      2 * ((emptySnap.apply [exH1]).toOption.get (by decide)).config.MaxSignerCount) := by
  have hb : emptySnap.apply [exH1] =
      .ok ((emptySnap.apply [exH1]).toOption.get (by decide)) := by decide
  exact ⟨historyHash_bounded.1 exCfg 100 [] 1 7 (by decide),
    historyHash_bounded.2.1 21 [100] 101 (by decide),
    historyHash_bounded.2.2 emptySnap [exH1] _ (by decide) (by decide) hb⟩

theorem alookup_addConfirmation (m : List (Nat × List Addr)) (c : Confirmation) (n : Nat) :
    (alookup (addConfirmation m c) n).getD [] =
      if u64 c.BlockNumber = n then insertAbsentAddr ((alookup m n).getD []) c.Signer
      else (alookup m n).getD [] := by
  unfold addConfirmation insertAbsentAddr
  dsimp only
  by_cases hbn : u64 c.BlockNumber = n
  · rw [if_pos hbn]
    by_cases hmem : c.Signer ∈ (alookup m (u64 c.BlockNumber)).getD []
    · rw [if_pos hmem, hbn] at *
      rw [alookup_ainsert_self]
      rw [hbn] at hmem
      rw [if_pos hmem]
      rfl
    · rw [if_neg hmem, hbn] at *
      rw [alookup_ainsert_self]
      rw [hbn] at hmem
      rw [if_neg hmem]
      rfl
  · rw [if_neg hbn]
    have hne : n ≠ u64 c.BlockNumber := fun h => hbn h.symm
    by_cases hmem : c.Signer ∈ (alookup m (u64 c.BlockNumber)).getD []
    · rw [if_pos hmem, alookup_ainsert_ne _ _ _ _ hne]
    · rw [if_neg hmem, alookup_ainsert_ne _ _ _ _ hne]

theorem alookup_fold_addConfirmation :
    ∀ (pending : List Confirmation) (m : List (Nat × List Addr)) (n : Nat),
      (alookup (pending.foldl addConfirmation m) n).getD [] =
        ((pending.filter (fun c => u64 c.BlockNumber == n)).map (fun c => c.Signer)).foldl
          insertAbsentAddr ((alookup m n).getD []) := by
  intro pending
  induction pending with
  | nil => intro m n; rfl
  | cons c rest ih =>
    intro m n
    simp only [List.foldl_cons, List.filter_cons]
    by_cases hbn : u64 c.BlockNumber = n
    · rw [if_pos (by simpa using hbn)]
      simp only [List.map_cons, List.foldl_cons]
      rw [ih, alookup_addConfirmation, if_pos hbn]
    · rw [if_neg (by simpa using hbn)]
      rw [ih, alookup_addConfirmation, if_neg hbn]

theorem insertAbsent_fold_nodup :
    ∀ (as : List Addr) (l : List Addr), l.Nodup → (as.foldl insertAbsentAddr l).Nodup := by
  intro as
  induction as with
  | nil => intro l h; exact h
  | cons a rest ih =>
    intro l h
    simp only [List.foldl_cons]
    apply ih
    unfold insertAbsentAddr
    by_cases hmem : a ∈ l
    · rw [if_pos hmem]
      exact h
    · rw [if_neg hmem]
      rw [List.nodup_append]
      refine ⟨h, List.nodup_singleton a, ?_⟩
      intro x hx hxa
      simp only [List.mem_singleton] at hxa
      exact hmem (hxa ▸ hx)

theorem insertAbsent_fold_toFinset :
    ∀ (as : List Addr) (l : List Addr),
      (as.foldl insertAbsentAddr l).toFinset = l.toFinset ∪ as.toFinset := by
  intro as
  induction as with
  | nil => intro l; simp
  | cons a rest ih =>
    intro l
    simp only [List.foldl_cons, List.toFinset_cons]
    rw [ih]
    have key : (insertAbsentAddr l a).toFinset = insert a l.toFinset := by
      unfold insertAbsentAddr
      by_cases hmem : a ∈ l
      · rw [if_pos hmem]
        rw [Finset.insert_eq_self.mpr (List.mem_toFinset.mpr hmem)]
      · rw [if_neg hmem]
        simp [List.toFinset_append, Finset.insert_eq, Finset.union_comm]
    rw [key]
    rw [Finset.insert_eq, Finset.insert_eq, Finset.union_assoc]
    rw [← Finset.union_assoc, Finset.union_comm {a} l.toFinset, Finset.union_assoc]

theorem insertAbsent_fold_length (as : List Addr) (l : List Addr) (hnd : l.Nodup) :
    (as.foldl insertAbsentAddr l).length = (l ++ as).dedup.length := by
  have h1 : (as.foldl insertAbsentAddr l).length = (as.foldl insertAbsentAddr l).toFinset.card :=
    (List.toFinset_card_of_nodup (insertAbsent_fold_nodup as l hnd)).symm
  rw [h1, insertAbsent_fold_toFinset, ← List.toFinset_append, List.card_toFinset]

theorem merged_count_eq (s : Snapshot) (pending : List Confirmation) (n : Nat)
    (hnd : ∀ p ∈ s.Confirmations, p.2.Nodup) :
    ((alookup (pending.foldl addConfirmation s.Confirmations) n).getD []).length =
      specConfirmerCount s pending n := by
  rw [alookup_fold_addConfirmation]
  have hbase : ((alookup s.Confirmations n).getD []).Nodup := by
    cases hl : alookup s.Confirmations n with
    | none => simp
    | some l => exact hnd _ (alookup_mem _ _ _ hl)
  rw [insertAbsent_fold_length _ _ hbase]
  rfl

theorem list_find?_congr {α : Type} :
    ∀ (L : List α) (p q : α → Bool), (∀ x ∈ L, p x = q x) → L.find? p = L.find? q := by
  intro L
  induction L with
  | nil => intro p q _; rfl
  | cons x rest ih =>
    intro p q h
    have hx := h x (List.mem_cons_self _ _)
    by_cases hp : p x = true
    · rw [List.find?_cons_of_pos _ hp, List.find?_cons_of_pos _ (hx ▸ hp)]
    · have hq : ¬ q x = true := fun hq => hp (hx ▸ hq)
      rw [List.find?_cons_of_neg _ hp, List.find?_cons_of_neg _ hq]
      exact ih p q (fun y hy => h y (List.mem_cons_of_mem _ hy))

theorem find?_append_getD {α : Type} (L : List α) (a : α) (p : α → Bool) :
    ((L ++ [a]).find? p).getD a = (L.find? p).getD a := by
  induction L with
  | nil =>
    simp only [List.nil_append]
    by_cases hp : p a = true
    · rw [List.find?_cons_of_pos _ hp]
      rfl
    · rw [List.find?_cons_of_neg _ hp]
  | cons x rest ih =>
    by_cases hp : p x = true
    · rw [List.cons_append, List.find?_cons_of_pos _ hp, List.find?_cons_of_pos _ hp]
    · rw [List.cons_append, List.find?_cons_of_neg _ hp, List.find?_cons_of_neg _ hp]
      exact ih

set_option maxRecDepth 20000 in
theorem c6_concrete_aux : confSnap.getLastConfirmedBlockNumber pending15 = 15 := by decide

set_option maxRecDepth 4000 in
/-- C6 (confirmed): with maxSignerCount = 21 the confirmed-block-number walk
of the code equals its specification: first height n at least number - 14 + 1
whose merged confirmation set holds more than 14 distinct signers, else the
floor of that window; and 15 unique signer confirmations for block 15 at
height 20 raise the confirmed number to 15. -/
theorem confirmedBlockNumber_matches_spec :
    (∀ (s : Snapshot) (pending : List Confirmation),
      s.config.MaxSignerCount = 21 → 14 ≤ s.Number → s.Number < 2 ^ 64 →
      (∀ p ∈ s.Confirmations, p.2.Nodup) →
      s.getLastConfirmedBlockNumber pending = specConfirmedNumber s pending) ∧
    confSnap.getLastConfirmedBlockNumber pending15 = 15 := by
  constructor
  · intro s pending hM hN hN2 hnd
    unfold Snapshot.getLastConfirmedBlockNumber specConfirmedNumber
    rw [hM]
    dsimp only
    have hthr : (21 * 2 / 3 : Nat) = 14 := by norm_num
    rw [hthr]
    have hbound : u64 (usub s.Number 14 + 1) = s.Number - 13 := by
      simp only [u64, usub]
      omega
    rw [hbound]
    have hfl : s.Number - 14 + 1 = s.Number - 13 := by omega
    rw [hfl]
    have hwin : s.Number - (s.Number - 13) = 13 := by omega
    have hwin2 : s.Number + 1 - (s.Number - 13) = 14 := by omega
    rw [hwin, hwin2]
    have hsplit : (List.range 14).map (fun k => s.Number - k) =
        (List.range 13).map (fun k => s.Number - k) ++ [s.Number - 13] := by
      rw [List.range_succ, List.map_append]
      rfl
    rw [hsplit]
    have hlt : s.Number - 13 < s.Number := by omega
    rw [if_pos hlt]
    rw [find?_append_getD]
    refine congrArg (fun o => Option.getD o (s.Number - 13)) ?_
    apply list_find?_congr
    intro x _
    rw [merged_count_eq s pending x hnd]
  · exact c6_concrete_aux

/-- C6 witness: the equality evaluated at the height-20 snapshot and the 15
pending confirmations for block 15. -/
theorem confirmedBlockNumber_matches_spec_witness :
    confSnap.getLastConfirmedBlockNumber pending15 = specConfirmedNumber confSnap pending15 :=
  confirmedBlockNumber_matches_spec.1 confSnap pending15 rfl (by decide) (by decide) (by decide)
